import Mathlib

/-!
Verification of the go-radixtree repository (`radixtree.go`).

The Go source is shallowly embedded: bytes become `Nat`, byte slices become
`List Nat`, the mutable tree becomes a purely functional tree that every
mutating operation returns, and Go's `*T` optional values become `Option T`.
A Go function returning `(T, bool)` — the zero value together with `false`
for "not found" — is modelled as a function returning `Option T`
(`none` = `(zero, false)`, `some v` = `(v, true)`).
-/

namespace RadixSpec

/-- Byte sequences (Go `[]byte`) are lists of naturals. -/
abbrev Bytes := List Nat

/-- Embedding of Go `bytes.HasPrefix(s, p)`: `p` is a byte-prefix of `s`. -/
def bytesHasPre : Bytes → Bytes → Bool
  | _, [] => true
  | [], _ :: _ => false
  | a :: s, b :: p => a == b && bytesHasPre s p

/-- Embedding of `longestCommonPrefix` from radixtree.go: the length of the
longest shared leading byte run of two byte sequences. -/
def longestCommonPrefix : Bytes → Bytes → Nat
  | a :: as, b :: bs => if a = b then longestCommonPrefix as bs + 1 else 0
  | _, _ => 0

/-- Strict lexicographic (byte-wise) order on byte sequences, as a boolean. -/
def keyLtB : Bytes → Bytes → Bool
  | [], [] => false
  | [], _ :: _ => true
  | _ :: _, [] => false
  | a :: as, b :: bs => decide (a < b) || (a == b && keyLtB as bs)

/-- Embedding of the `node` struct of radixtree.go.  The Go field `prefix`
is called `pre` here; `value *T` becomes `val : Option T`. -/
inductive Node (T : Type) : Type where
  | mk (pre : Bytes) (val : Option T) (children : List (Node T)) : Node T

variable {T : Type}

def Node.pre : Node T → Bytes
  | .mk p _ _ => p

def Node.val : Node T → Option T
  | .mk _ v _ => v

def Node.children : Node T → List (Node T)
  | .mk _ _ c => c

@[simp] theorem Node.pre_mk (p : Bytes) (v : Option T) (cs : List (Node T)) :
    (Node.mk p v cs).pre = p := rfl

@[simp] theorem Node.val_mk (p : Bytes) (v : Option T) (cs : List (Node T)) :
    (Node.mk p v cs).val = v := rfl

@[simp] theorem Node.children_mk (p : Bytes) (v : Option T) (cs : List (Node T)) :
    (Node.mk p v cs).children = cs := rfl

/-- The discriminator byte of a node: the first byte of its `pre`.  The Go
source accesses `prefix[0]`, which is only ever reached on nodes with a
non-empty `pre`; `headD 0` totalizes this. -/
def fstByte (n : Node T) : Nat := n.pre.headD 0

theorem sizeOf_mem_children {n : Node T} {c : Node T}
    (hc : c ∈ n.children) : sizeOf c < sizeOf n := by
  cases n with
  | mk p v cs =>
    have h := List.sizeOf_lt_of_mem hc
    simp only [Node.children_mk] at h
    simp only [Node.mk.sizeOf_spec]
    omega

theorem sizeOf_children_lt (n : Node T) : sizeOf n.children < sizeOf n := by
  cases n with
  | mk p v cs =>
    simp only [Node.children_mk, Node.mk.sizeOf_spec]
    omega

theorem sizeOf_get_lt (n : Node T) (i : Fin n.children.length) :
    sizeOf (n.children.get i) < sizeOf n :=
  sizeOf_mem_children (List.get_mem _ i.1 i.2)

theorem mem_of_getLast?_eq {α : Type _} {l : List α} {a : α}
    (h : l.getLast? = some a) : a ∈ l := by
  have hx : a ∈ l.getLast? := h
  obtain ⟨hne, rfl⟩ := List.mem_getLast?_eq_getLast hx
  exact List.getLast_mem hne

/-- Nested induction principle for `Node`. -/
theorem Node.ind {motive : Node T → Prop}
    (h : ∀ p v cs, (∀ c ∈ cs, motive c) → motive (.mk p v cs)) : ∀ n, motive n := by
  have key : ∀ k (n : Node T), sizeOf n ≤ k → motive n := by
    intro k
    induction k with
    | zero =>
      intro n hn
      cases n with
      | mk p v cs => simp [Node.mk.sizeOf_spec] at hn
    | succ k ih =>
      intro n hn
      cases n with
      | mk p v cs =>
        apply h
        intro c hc
        apply ih
        have := List.sizeOf_lt_of_mem hc
        simp [Node.mk.sizeOf_spec] at hn
        omega
  exact fun n => key (sizeOf n) n le_rfl

/-! ### The children collection

Go's `children` is a slice kept sorted by first prefix byte; `search` is
`sort.Search` (binary search).  `srchGo` runs Go's binary-search loop with
explicit fuel; `n + 1` fuel always suffices because the gap `j - i`
strictly shrinks every iteration. -/

def srchGo (f : Nat → Bool) : Nat → Nat → Nat → Nat
  | 0, i, _ => i
  | fuel + 1, i, j =>
    if i < j then
      if f ((i + j) / 2) then srchGo f fuel i ((i + j) / 2)
      else srchGo f fuel ((i + j) / 2 + 1) j
    else i

/-- Embedding of Go `sort.Search(n, f)`. -/
def sortSearch (n : Nat) (f : Nat → Bool) : Nat := srchGo f (n + 1) 0 n

/-- `children.search(b)` from radixtree.go. -/
def chSearch (cs : List (Node T)) (b : Nat) : Nat :=
  sortSearch cs.length (fun i => decide (b ≤ fstByte (cs.getD i (.mk [] none []))))

/-- `children.index(b)` from radixtree.go, as an `Option` of an in-range
index instead of `-1` for "not found". -/
def chIndex (cs : List (Node T)) (b : Nat) : Option (Fin cs.length) :=
  if h : chSearch cs b < cs.length then
    if fstByte (cs.get ⟨chSearch cs b, h⟩) = b then some ⟨chSearch cs b, h⟩ else none
  else none

/-- `children.add(node)` from radixtree.go: insert at the position returned
by `search`, keeping the ascending order by first prefix byte. -/
def chAdd (cs : List (Node T)) (nd : Node T) : List (Node T) :=
  cs.take (chSearch cs (fstByte nd)) ++ nd :: cs.drop (chSearch cs (fstByte nd))

/-- `merge(n)` from radixtree.go: absorb the first child (the only one at
every call site) into `n`. -/
def mergeNode : Node T → Node T
  | .mk p _ (c :: _) => .mk (p ++ c.pre) c.val c.children
  | n => n

/-! ### Model: the entries stored in a subtree -/

mutual
/-- All (key, value) entries stored in the subtree of `n`, in depth-first
order, with keys relative to `n` (not including `n.pre`). -/
def entsIn : Node T → List (Bytes × T)
  | .mk _ v cs =>
    (match v with
     | some x => [(([] : Bytes), x)]
     | none => []) ++ entsL cs
termination_by n => sizeOf n

/-- Entries of a list of children, each child's keys led by its own `pre`. -/
def entsL : List (Node T) → List (Bytes × T)
  | [] => []
  | c :: cs =>
    (entsIn c).map (fun e => (c.pre ++ e.1, e.2)) ++ entsL cs
termination_by cs => sizeOf cs
end

mutual
/-- The number of nodes holding a value in the subtree of `n`. -/
def cntVals : Node T → Nat
  | .mk _ v cs => (match v with | some _ => 1 | none => 0) + cntValsL cs
termination_by n => sizeOf n

def cntValsL : List (Node T) → Nat
  | [] => 0
  | c :: cs => cntVals c + cntValsL cs
termination_by cs => sizeOf cs
end

mutual
/-- Every node of the subtree of `n`, including `n` itself. -/
def allNodes : Node T → List (Node T)
  | .mk p v cs => .mk p v cs :: allNodesL cs
termination_by n => sizeOf n

def allNodesL : List (Node T) → List (Node T)
  | [] => []
  | c :: cs => allNodes c ++ allNodesL cs
termination_by cs => sizeOf cs
end

/-- Every strict descendant of `n`. -/
def subNodes (n : Node T) : List (Node T) := allNodesL n.children

/-! ### The operations of radixtree.go, node level -/

/-- The descent loop of `RadixTree.Get`. -/
def getN : Node T → Bytes → Option T
  | n, [] => n.val
  | n, key@(_ :: _) =>
    match chIndex n.children (key.headD 0) with
    | none => none
    | some i =>
      if bytesHasPre key (n.children.get i).pre then
        getN (n.children.get i) (key.drop (n.children.get i).pre.length)
      else none
termination_by n _ => sizeOf n
decreasing_by exact sizeOf_get_lt n i

/-- The descent loop of `RadixTree.Walk`: find the node the traversal starts
at.  When the remaining prefix stops part-way into a child's `pre` (the
`!bytes.HasPrefix(prefix, n.prefix)` break with `n != nil`), the walk starts
at that child. -/
def walkDescend : Node T → Bytes → Option (Node T)
  | n, [] => some n
  | n, key@(_ :: _) =>
    match chIndex n.children (key.headD 0) with
    | none => none
    | some i =>
      if bytesHasPre key (n.children.get i).pre then
        walkDescend (n.children.get i) (key.drop (n.children.get i).pre.length)
      else some (n.children.get i)
termination_by n _ => sizeOf n
decreasing_by exact sizeOf_get_lt n i

mutual
/-- `walk(n, f)` from radixtree.go.  The Go visitor mutates captured state;
here the visitor threads a state `s` explicitly and returns the Go visitor's
boolean continuation flag. -/
def walkN {σ : Type} (f : σ → T → σ × Bool) : Node T → σ → σ × Bool
  | .mk _ v cs, s =>
    match v with
    | some x =>
      match f s x with
      | (s1, false) => (s1, false)
      | (s1, true) => walkL f cs s1
    | none => walkL f cs s
termination_by n _ => sizeOf n

def walkL {σ : Type} (f : σ → T → σ × Bool) : List (Node T) → σ → σ × Bool
  | [], s => (s, true)
  | c :: cs, s =>
    match walkN f c s with
    | (s1, false) => (s1, false)
    | (s1, true) => walkL f cs s1
termination_by cs _ => sizeOf cs
end

/-- The split branch of `Insert`: the child only shares `lcm < len(child.pre)`
bytes with the key, so a new intermediate node with prefix `key[:lcm]`
replaces it; the shortened child and, unless the key is exhausted, a new
leaf become its children. -/
def splitNode (v : T) (key : Bytes) (lcm : Nat) (child : Node T) : Node T :=
  if key.drop lcm = [] then
    .mk (key.take lcm) (some v) (chAdd [] (.mk (child.pre.drop lcm) child.val child.children))
  else
    .mk (key.take lcm) none
      (chAdd (chAdd [] (.mk (child.pre.drop lcm) child.val child.children))
        (.mk (key.drop lcm) (some v) []))

/-- The body of `RadixTree.Insert`.  Returns the new subtree and the old
value (`some old` iff the Go code returns `(old, true)`). -/
def insN (v : T) : Node T → Bytes → Node T × Option T
  | n, [] =>
    match n.val with
    | some old => (.mk n.pre (some v) n.children, some old)
    | none => (.mk n.pre (some v) n.children, none)
  | n, key@(_ :: _) =>
    match chIndex n.children (key.headD 0) with
    | none => (.mk n.pre n.val (chAdd n.children (.mk key (some v) [])), none)
    | some i =>
      if longestCommonPrefix key (n.children.get i).pre < (n.children.get i).pre.length then
        (.mk n.pre n.val (n.children.set i.1
          (splitNode v key (longestCommonPrefix key (n.children.get i).pre)
            (n.children.get i))), none)
      else
        ((.mk n.pre n.val (n.children.set i.1
            (insN v (n.children.get i)
              (key.drop (longestCommonPrefix key (n.children.get i).pre))).1)),
         (insN v (n.children.get i)
            (key.drop (longestCommonPrefix key (n.children.get i).pre))).2)
termination_by n _ => sizeOf n
decreasing_by all_goals exact sizeOf_get_lt n i


/-- The updated children list of the landing node's parent. -/
def removeChildren (n : Node T) (i : Fin n.children.length) : List (Node T) :=
  if (n.children.get i).children.length == 0 then
    n.children.eraseIdx i.1
  else if (n.children.get i).children.length == 1 then
    n.children.set i.1
      (mergeNode (.mk (n.children.get i).pre none (n.children.get i).children))
  else
    n.children.set i.1 (.mk (n.children.get i).pre none (n.children.get i).children)

/-- The epilogue of `Remove` once the landing node `n.children.get i` (with a
value) is found: clear its value; drop it from its parent when childless;
merge it when left with a single child; finally merge the parent when the
parent is not the root, has no value and a single child remains. -/
def removeAt (isRoot : Bool) (n : Node T) (i : Fin n.children.length) : Node T :=
  if !isRoot && (removeChildren n i).length == 1 && n.val.isNone then
    mergeNode (Node.mk n.pre n.val (removeChildren n i))
  else Node.mk n.pre n.val (removeChildren n i)

/-- The body of `RadixTree.Remove` for a non-empty key.  `isRoot` records
whether the current node is the tree root (Go compares pointers against
`root` for the two merge steps).  Returns `none` when the key is not stored;
otherwise the rebuilt subtree and the removed value. -/
def removeFrom (isRoot : Bool) : Node T → Bytes → Option (Node T × T)
  | _, [] => none
  | n, key@(_ :: _) =>
    match chIndex n.children (key.headD 0) with
    | none => none
    | some i =>
      if bytesHasPre key (n.children.get i).pre then
        if key.drop (n.children.get i).pre.length = [] then
          match (n.children.get i).val with
          | none => none
          | some v => some (removeAt isRoot n i, v)
        else
          match removeFrom false (n.children.get i) (key.drop (n.children.get i).pre.length) with
          | none => none
          | some (c1, v) => some (.mk n.pre n.val (n.children.set i.1 c1), v)
      else none
termination_by n _ => sizeOf n
decreasing_by exact sizeOf_get_lt n i



/-- `node.max` from radixtree.go: descend to the last child repeatedly, then
take that node's value. -/
def nodeMax : Node T → Option T
  | n =>
    match h : n.children.getLast? with
    | some c => nodeMax c
    | none => n.val
termination_by n => sizeOf n
decreasing_by exact sizeOf_mem_children (mem_of_getLast?_eq h)

/-- `node.min` from radixtree.go: descend to the first child while the node
has no value, then take the value. -/
def nodeMin : Node T → Option T
  | n =>
    match n.val with
    | some v => some v
    | none =>
      match h : n.children.head? with
      | some c => nodeMin c
      | none => none
termination_by n => sizeOf n
decreasing_by exact sizeOf_mem_children (List.mem_of_mem_head? h)

/-- The descent loop of `RadixTree.LongestPrefix`; `last` is the most recent
value seen on the matched path. -/
def lonN : Node T → Bytes → Option T → Option T
  | _, [], last => last
  | n, key@(_ :: _), last =>
    match chIndex n.children (key.headD 0) with
    | none => last
    | some i =>
      if bytesHasPre key (n.children.get i).pre then
        lonN (n.children.get i) (key.drop (n.children.get i).pre.length)
          (if (n.children.get i).val.isSome then (n.children.get i).val else last)
      else last
termination_by n _ _ => sizeOf n
decreasing_by exact sizeOf_get_lt n i

/-- The descent loop of `RadixTree.Predecessor`: `acc` is the rewind point
(`min` in the Go code) and `anc` the `ancestor` flag. -/
def predN : Node T → Bytes → Option (Node T) → Bool → Option T
  | _, [], acc, anc =>
    (match acc with
     | some m => if anc then m.val else nodeMax m
     | none => none)
  | n, key@(_ :: _), acc, anc =>
    match chIndex n.children (key.headD 0) with
    | none => none
    | some i =>
      if bytesHasPre key (n.children.get i).pre then
        if 0 < i.1 then
          predN (n.children.get i) (key.drop (n.children.get i).pre.length)
            (some (n.children.get ⟨i.1 - 1, Nat.lt_of_le_of_lt (Nat.sub_le _ _) i.2⟩)) false
        else if n.val.isSome then
          predN (n.children.get i) (key.drop (n.children.get i).pre.length) (some n) true
        else
          predN (n.children.get i) (key.drop (n.children.get i).pre.length) acc anc
      else none
termination_by n _ _ _ => sizeOf n
decreasing_by all_goals exact sizeOf_get_lt n i

/-- The descent loop of `RadixTree.Successor`: `acc` is the candidate next
sibling (`min` in the Go code). -/
def succN : Node T → Bytes → Option (Node T) → Option T
  | n, [], acc =>
    (match (match n.children.head? with | some c => some c | none => acc) with
     | some m => nodeMin m
     | none => none)
  | n, key@(_ :: _), acc =>
    match chIndex n.children (key.headD 0) with
    | none => none
    | some i =>
      if bytesHasPre key (n.children.get i).pre then
        succN (n.children.get i) (key.drop (n.children.get i).pre.length)
          (if h : i.1 + 1 < n.children.length then some (n.children.get ⟨i.1 + 1, h⟩) else acc)
      else none
termination_by n _ _ => sizeOf n
decreasing_by exact sizeOf_get_lt n i

/-! ### The tree-level API -/

/-- Embedding of the `RadixTree` struct: the root node and the running count
of stored values. -/
structure RadixTree (T : Type) : Type where
  root : Node T
  size : Nat

/-- `New()` from radixtree.go. -/
def RadixTree.New : RadixTree T := ⟨.mk [] none [], 0⟩

/-- `Get` from radixtree.go (`some v` = `(v, true)`, `none` = `(zero, false)`). -/
def RadixTree.Get (t : RadixTree T) (key : Bytes) : Option T := getN t.root key

/-- `Contains` from radixtree.go. -/
def RadixTree.Contains (t : RadixTree T) (key : Bytes) : Bool := (t.Get key).isSome

/-- `Len` from radixtree.go. -/
def RadixTree.Len (t : RadixTree T) : Nat := t.size

/-- `Insert` from radixtree.go: the updated tree together with the old value
(`some old` = Go `(old, true)`, `none` = Go `(zero, false)`).  `size` grows
exactly on fresh insertions. -/
def RadixTree.Insert (t : RadixTree T) (key : Bytes) (v : T) : RadixTree T × Option T :=
  ((⟨(insN v t.root key).1,
     if (insN v t.root key).2.isSome then t.size else t.size + 1⟩ : RadixTree T),
   (insN v t.root key).2)

/-- `Remove` from radixtree.go: the updated tree together with the removed
value.  An empty key lands on the root itself: its value is cleared and no
restructuring happens (the root is exempt from both merges). -/
def RadixTree.Remove (t : RadixTree T) (key : Bytes) : RadixTree T × Option T :=
  match key with
  | [] =>
    match t.root.val with
    | some v => (⟨.mk t.root.pre none t.root.children, t.size - 1⟩, some v)
    | none => (t, none)
  | _ :: _ =>
    match removeFrom true t.root key with
    | some (r, v) => (⟨r, t.size - 1⟩, some v)
    | none => (t, none)

/-- `Walk` from radixtree.go with an explicitly state-threading visitor:
returns the final visitor state. -/
def RadixTree.Walk {σ : Type} (t : RadixTree T) (p : Bytes) (f : σ → T → σ × Bool) (s : σ) : σ :=
  match walkDescend t.root p with
  | none => s
  | some n => (walkN f n s).1

/-- `Find` from radixtree.go: `Walk` with a visitor that appends every value
and always continues. -/
def RadixTree.Find (t : RadixTree T) (p : Bytes) : List T :=
  t.Walk p (fun acc x => (acc ++ [x], true)) []

/-- `Values` from radixtree.go: `Walk` from the empty prefix, appending. -/
def RadixTree.Values (t : RadixTree T) : List T :=
  t.Walk [] (fun acc x => (acc ++ [x], true)) []

/-- `LongestPrefix` from radixtree.go. -/
def RadixTree.LongestPrefix (t : RadixTree T) (key : Bytes) : Option T :=
  lonN t.root key none

/-- `Max` from radixtree.go. -/
def RadixTree.Max (t : RadixTree T) : Option T := nodeMax t.root

/-- `Min` from radixtree.go. -/
def RadixTree.Min (t : RadixTree T) : Option T := nodeMin t.root

/-- `Predecessor` from radixtree.go. -/
def RadixTree.Predecessor (t : RadixTree T) (key : Bytes) : Option T :=
  predN t.root key none false

/-- `Successor` from radixtree.go. -/
def RadixTree.Successor (t : RadixTree T) (key : Bytes) : Option T :=
  succN t.root key none

/-- The key/value entries of the whole tree (the root's `pre` is always
empty, so relative keys at the root are absolute keys). -/
def treeEnts (t : RadixTree T) : List (Bytes × T) := entsIn t.root

/-! ### Structural invariants -/

/-- The children of a node are strictly ascending in their first prefix
byte; this is both the sortedness invariant and sibling-uniqueness. -/
def sortedFst (cs : List (Node T)) : Prop :=
  cs.Pairwise (fun a b => fstByte a < fstByte b)

/-- Well-formedness of every non-root node: non-empty prefix, children
strictly sorted by first byte, no node with at most one child and no value
(maximal path compression; a childless node must hold a value, since leaves
are only ever created for fresh insertions and childless nodes losing their
value are unlinked), and all children well-formed. -/
inductive SubOK : Node T → Prop where
  | intro (p : Bytes) (v : Option T) (cs : List (Node T)) :
      p ≠ [] →
      (cs.length ≤ 1 → v.isSome) →
      sortedFst cs →
      (∀ c ∈ cs, SubOK c) →
      SubOK (.mk p v cs)

/-- Well-formedness at a node seen as a subtree root: sorted children, each
child fully well-formed. -/
def innerOK (n : Node T) : Prop := sortedFst n.children ∧ ∀ c ∈ n.children, SubOK c

/-- Well-formedness of a whole tree: empty root prefix, well-formed root
children, and the size counter equal to the number of stored entries. -/
def TreeWF (t : RadixTree T) : Prop :=
  t.root.pre = [] ∧ innerOK t.root ∧ t.size = (treeEnts t).length

/-- Trees reachable from `New` by any sequence of `Insert` and `Remove`
operations (the queries do not modify the tree). -/
inductive Reachable : RadixTree T → Prop where
  | new : Reachable .New
  | ins (t : RadixTree T) (k : Bytes) (v : T) : Reachable t → Reachable (t.Insert k v).1
  | rem (t : RadixTree T) (k : Bytes) : Reachable t → Reachable (t.Remove k).1

/-! ### Derived specification notions -/

/-- A list of entries whose keys are strictly ascending lexicographically. -/
def entsSorted (l : List (Bytes × T)) : Prop :=
  l.Pairwise (fun a b => keyLtB a.1 b.1 = true)

/-- The entries of the subtree of `n` with `n.pre` prepended to every key
(the shape in which a node's entries appear inside its parent). -/
def absEnts (n : Node T) : List (Bytes × T) :=
  (entsIn n).map (fun e => (n.pre ++ e.1, e.2))

/-- What `Walk`-based collection produces: the values of the subtree at the
node reached by `walkDescend`, or nothing. -/
def findVals (n : Node T) (p : Bytes) : List T :=
  match walkDescend n p with
  | none => []
  | some m => (entsIn m).map (fun e => e.2)

/-- The last entry's value, or a default: what the `last` tracking of
`LongestPrefix` computes over a candidate list. -/
def lastVal (l : List (Bytes × T)) (dflt : Option T) : Option T :=
  match l.getLast? with
  | some e => some e.2
  | none => dflt

/-- The candidates of `LongestPrefix` at `n`: stored entries with a
non-empty key that is a byte-prefix of `k`. -/
def lonCands (n : Node T) (k : Bytes) : List (Bytes × T) :=
  (entsIn n).filter (fun e => !e.1.isEmpty && bytesHasPre k e.1)

/-! ## Lemmas: byte-sequence basics -/

@[simp] theorem bytesHasPre_nil (s : Bytes) : bytesHasPre s [] = true := by
  cases s <;> rfl

@[simp] theorem bytesHasPre_nil_cons (b : Nat) (p : Bytes) :
    bytesHasPre [] (b :: p) = false := rfl

@[simp] theorem bytesHasPre_cons_cons (a b : Nat) (s p : Bytes) :
    bytesHasPre (a :: s) (b :: p) = (a == b && bytesHasPre s p) := rfl

theorem bytesHasPre_iff {s p : Bytes} : bytesHasPre s p = true ↔ ∃ r, s = p ++ r := by
  induction p generalizing s with
  | nil => simpa using ⟨s, rfl⟩
  | cons b p ih =>
    cases s with
    | nil => simp
    | cons a s =>
      simp only [bytesHasPre_cons_cons, Bool.and_eq_true, beq_iff_eq, ih, List.cons_append,
        List.cons.injEq]
      constructor
      · rintro ⟨rfl, r, rfl⟩
        exact ⟨r, rfl, rfl⟩
      · rintro ⟨r, rfl, rfl⟩
        exact ⟨rfl, r, rfl⟩

@[simp] theorem bytesHasPre_append (p r : Bytes) : bytesHasPre (p ++ r) p = true :=
  bytesHasPre_iff.mpr ⟨r, rfl⟩

@[simp] theorem bytesHasPre_self (p : Bytes) : bytesHasPre p p = true := by
  simpa using bytesHasPre_append p []

theorem bytesHasPre_cancel (q s p : Bytes) :
    bytesHasPre (q ++ s) (q ++ p) = bytesHasPre s p := by
  induction q with
  | nil => rfl
  | cons a q ih => simp [ih]

theorem bytesHasPre_length {s p : Bytes} (h : bytesHasPre s p = true) :
    p.length ≤ s.length := by
  obtain ⟨r, rfl⟩ := bytesHasPre_iff.mp h
  simp

theorem bytesHasPre_head {s p : Bytes} (hp : p ≠ []) (h : bytesHasPre s p = true) :
    s.headD 0 = p.headD 0 := by
  obtain ⟨r, rfl⟩ := bytesHasPre_iff.mp h
  cases p with
  | nil => exact absurd rfl hp
  | cons b bs => rfl

theorem bytesHasPre_trans {s p q : Bytes} (h1 : bytesHasPre s p = true)
    (h2 : bytesHasPre p q = true) : bytesHasPre s q = true := by
  obtain ⟨r1, rfl⟩ := bytesHasPre_iff.mp h1
  obtain ⟨r2, rfl⟩ := bytesHasPre_iff.mp h2
  exact bytesHasPre_iff.mpr ⟨r2 ++ r1, by simp⟩

/-- Two prefixes of the same sequence are comparable: the shorter is a
prefix of the longer. -/
theorem bytesHasPre_of_shorter {s p q : Bytes} (hp : bytesHasPre s p = true)
    (hq : bytesHasPre s q = true) (hl : p.length ≤ q.length) :
    bytesHasPre q p = true := by
  induction p generalizing q s with
  | nil => simp
  | cons a p ih =>
    cases q with
    | nil => simp at hl
    | cons b q =>
      cases s with
      | nil => simp at hp
      | cons c s =>
        simp only [bytesHasPre_cons_cons, Bool.and_eq_true, beq_iff_eq] at hp hq ⊢
        obtain ⟨rfl, hp⟩ := hp
        obtain ⟨rfl, hq⟩ := hq
        simp only [List.length_cons, Nat.add_le_add_iff_right] at hl
        exact ⟨rfl, ih hp hq hl⟩

theorem bytesHasPre_take (s : Bytes) (l : Nat) : bytesHasPre s (s.take l) = true :=
  bytesHasPre_iff.mpr ⟨s.drop l, (List.take_append_drop l s).symm⟩

/-! ## Lemmas: the lexicographic order -/

@[simp] theorem keyLt_nil_cons (b : Nat) (bs : Bytes) : keyLtB [] (b :: bs) = true := rfl

@[simp] theorem keyLt_nil_nil : keyLtB ([] : Bytes) [] = false := rfl

@[simp] theorem keyLt_cons_nil (a : Nat) (as : Bytes) : keyLtB (a :: as) [] = false := rfl

@[simp] theorem keyLt_cons_cons (a b : Nat) (as bs : Bytes) :
    keyLtB (a :: as) (b :: bs) = (decide (a < b) || (a == b && keyLtB as bs)) := rfl

theorem keyLt_irrefl (a : Bytes) : keyLtB a a = false := by
  induction a with
  | nil => rfl
  | cons x xs ih => simp [ih]

theorem keyLt_trans {a b c : Bytes} (h1 : keyLtB a b = true) (h2 : keyLtB b c = true) :
    keyLtB a c = true := by
  induction a generalizing b c with
  | nil =>
    cases b with
    | nil => simp at h1
    | cons y ys =>
      cases c with
      | nil => simp at h2
      | cons z zs => simp
  | cons x xs ih =>
    cases b with
    | nil => simp at h1
    | cons y ys =>
      cases c with
      | nil => simp at h2
      | cons z zs =>
        simp only [keyLt_cons_cons, Bool.or_eq_true, decide_eq_true_eq, Bool.and_eq_true,
          beq_iff_eq] at h1 h2 ⊢
        rcases h1 with h1 | ⟨rfl, h1⟩
        · rcases h2 with h2 | ⟨rfl, h2⟩
          · exact Or.inl (h1.trans h2)
          · exact Or.inl h1
        · rcases h2 with h2 | ⟨rfl, h2⟩
          · exact Or.inl h2
          · exact Or.inr ⟨rfl, ih h1 h2⟩

theorem keyLt_asymm {a b : Bytes} (h : keyLtB a b = true) : keyLtB b a = false := by
  by_contra hc
  have hba : keyLtB b a = true := by
    cases hab : keyLtB b a
    · exact absurd hab hc
    · rfl
  have := keyLt_trans h hba
  rw [keyLt_irrefl] at this
  exact Bool.false_ne_true this

theorem keyLt_append_left (q : Bytes) {a b : Bytes} (h : keyLtB a b = true) :
    keyLtB (q ++ a) (q ++ b) = true := by
  induction q with
  | nil => exact h
  | cons x xs ih => simp [ih]

theorem keyLt_head {a b : Nat} (as bs : Bytes) (h : a < b) :
    keyLtB (a :: as) (b :: bs) = true := by simp [h]

theorem keyLt_proper_pre {p r : Bytes} (hr : r ≠ []) : keyLtB p (p ++ r) = true := by
  have : keyLtB [] r = true := by
    cases r with
    | nil => exact absurd rfl hr
    | cons x xs => simp
  simpa using keyLt_append_left p this

theorem keyLt_length_of_both_pre {a b s : Bytes} (ha : bytesHasPre s a = true)
    (hb : bytesHasPre s b = true) (h : keyLtB a b = true) : a.length < b.length := by
  by_contra hc
  have hba : bytesHasPre a b = true :=
    bytesHasPre_of_shorter hb ha (by omega)
  obtain ⟨r, rfl⟩ := bytesHasPre_iff.mp hba
  cases r with
  | nil =>
    rw [List.append_nil] at h
    rw [keyLt_irrefl] at h
    exact Bool.false_ne_true h
  | cons x xs =>
    have h2 : keyLtB b (b ++ x :: xs) = true := keyLt_proper_pre (by simp)
    have := keyLt_asymm h2
    rw [this] at h
    exact Bool.false_ne_true h

/-! ## Lemmas: longest common prefix -/

@[simp] theorem lcm_nil_left (b : Bytes) : longestCommonPrefix [] b = 0 := by
  cases b <;> rfl

@[simp] theorem lcm_nil_right (a : Bytes) : longestCommonPrefix a [] = 0 := by
  cases a <;> rfl

@[simp] theorem lcm_cons_cons (a b : Nat) (as bs : Bytes) :
    longestCommonPrefix (a :: as) (b :: bs) =
      if a = b then longestCommonPrefix as bs + 1 else 0 := rfl

theorem lcm_le_left (a b : Bytes) : longestCommonPrefix a b ≤ a.length := by
  induction a generalizing b with
  | nil => simp
  | cons x xs ih =>
    cases b with
    | nil => simp
    | cons y ys =>
      simp only [lcm_cons_cons, List.length_cons]
      split
      · have := ih ys
        omega
      · omega

theorem lcm_le_right (a b : Bytes) : longestCommonPrefix a b ≤ b.length := by
  induction a generalizing b with
  | nil => simp
  | cons x xs ih =>
    cases b with
    | nil => simp
    | cons y ys =>
      simp only [lcm_cons_cons, List.length_cons]
      split
      · have := ih ys
        omega
      · omega

theorem take_lcm_eq (a b : Bytes) :
    a.take (longestCommonPrefix a b) = b.take (longestCommonPrefix a b) := by
  induction a generalizing b with
  | nil => simp
  | cons x xs ih =>
    cases b with
    | nil => simp
    | cons y ys =>
      simp only [lcm_cons_cons]
      split
      · next h => simp [h, List.take_succ_cons, ih ys]
      · simp

theorem bytesHasPre_iff_lcm {key pre : Bytes} :
    bytesHasPre key pre = true ↔ longestCommonPrefix key pre = pre.length := by
  induction pre generalizing key with
  | nil => simp
  | cons b bs ih =>
    cases key with
    | nil => simp
    | cons a as =>
      simp only [bytesHasPre_cons_cons, Bool.and_eq_true, beq_iff_eq, lcm_cons_cons,
        List.length_cons]
      constructor
      · rintro ⟨rfl, h⟩
        rw [if_pos rfl, ih.mp h]
      · intro h
        split at h
        · next he => exact ⟨he, ih.mpr (by omega)⟩
        · omega

/-- At the first position after the common run the two sequences differ
(when both still have a byte there). -/
theorem lcm_drop_head_ne {a b : Bytes} (h1 : longestCommonPrefix a b < a.length)
    (h2 : longestCommonPrefix a b < b.length) :
    (a.drop (longestCommonPrefix a b)).headD 0 ≠ (b.drop (longestCommonPrefix a b)).headD 0 := by
  induction a generalizing b with
  | nil => simp at h1
  | cons x xs ih =>
    cases b with
    | nil => simp at h2
    | cons y ys =>
      simp only [lcm_cons_cons] at h1 h2 ⊢
      by_cases hxy : x = y
      · rw [if_pos hxy] at h1 h2 ⊢
        simp only [List.length_cons, Nat.add_lt_add_iff_right] at h1 h2
        simpa using ih h1 h2
      · rw [if_neg hxy] at h1 h2 ⊢
        simpa using hxy

theorem lcm_pos {k p : Bytes} (hk : k ≠ []) (hp : p ≠ []) (h : k.headD 0 = p.headD 0) :
    0 < longestCommonPrefix k p := by
  cases k with
  | nil => exact absurd rfl hk
  | cons a as =>
    cases p with
    | nil => exact absurd rfl hp
    | cons b bs =>
      simp only [List.headD_cons] at h
      simp [h]

/-! ## Lemmas: the binary search of `sort.Search` -/

theorem srchGo_spec (f : Nat → Bool) (N : Nat)
    (hmono : ∀ a b, a ≤ b → b < N → f a = true → f b = true) :
    ∀ fuel i j, i ≤ j → j ≤ N → j - i ≤ fuel →
      (∀ k, k < i → f k = false) → (∀ k, j ≤ k → k < N → f k = true) →
      i ≤ srchGo f fuel i j ∧ srchGo f fuel i j ≤ j ∧
        (∀ k, k < srchGo f fuel i j → f k = false) ∧
        (∀ k, srchGo f fuel i j ≤ k → k < N → f k = true) := by
  intro fuel
  induction fuel with
  | zero =>
    intro i j hij hjN hgap hlow hhigh
    have hieq : i = j := by omega
    subst hieq
    simp only [srchGo]
    exact ⟨le_rfl, le_rfl, hlow, fun k hk hkN => hhigh k hk hkN⟩
  | succ fuel ih =>
    intro i j hij hjN hgap hlow hhigh
    simp only [srchGo]
    by_cases hlt : i < j
    · rw [if_pos hlt]
      have hmid_lt : (i + j) / 2 < j := by
        rw [Nat.div_lt_iff_lt_mul (by omega : 0 < 2)]
        omega
      have hmid_ge : i ≤ (i + j) / 2 := by
        rw [Nat.le_div_iff_mul_le (by omega : 0 < 2)]
        omega
      cases hf : f ((i + j) / 2) with
      | true =>
        rw [if_pos rfl]
        obtain ⟨ha, hb, hc, hd⟩ := ih i ((i + j) / 2) hmid_ge (by omega) (by omega) hlow
          (fun k hk hkN => hmono _ _ hk hkN hf)
        exact ⟨ha, by omega, hc, hd⟩
      | false =>
        rw [if_neg (by simp [hf])]
        have hlow1 : ∀ k, k < (i + j) / 2 + 1 → f k = false := by
          intro k hk
          by_cases hkmid : k < i
          · exact hlow k hkmid
          · cases hfk : f k with
            | true =>
              have : f ((i + j) / 2) = true := hmono k _ (by omega) (by omega) hfk
              rw [this] at hf
              exact absurd hf (by simp)
            | false => rfl
        obtain ⟨ha, hb, hc, hd⟩ := ih ((i + j) / 2 + 1) j (by omega) hjN (by omega) hlow1 hhigh
        exact ⟨by omega, hb, hc, hd⟩
    · rw [if_neg hlt]
      have hieq : i = j := by omega
      subst hieq
      exact ⟨le_rfl, le_rfl, hlow, fun k hk hkN => hhigh k hk hkN⟩

theorem sortSearch_spec (f : Nat → Bool) (N : Nat)
    (hmono : ∀ a b, a ≤ b → b < N → f a = true → f b = true) :
    sortSearch N f ≤ N ∧ (∀ k, k < sortSearch N f → f k = false) ∧
      (∀ k, sortSearch N f ≤ k → k < N → f k = true) := by
  have h := srchGo_spec f N hmono (N + 1) 0 N (by omega) le_rfl (by omega)
    (by omega) (by intro k h1 h2; omega)
  exact ⟨h.2.1, h.2.2.1, h.2.2.2⟩

/-! ## Lemmas: the sorted children collection -/

theorem sorted_get_lt {cs : List (Node T)} (hs : sortedFst cs) {i j : Fin cs.length}
    (hij : i < j) : fstByte (cs.get i) < fstByte (cs.get j) :=
  List.pairwise_iff_get.mp hs i j hij

theorem chSearch_spec {cs : List (Node T)} (hs : sortedFst cs) (b : Nat) :
    chSearch cs b ≤ cs.length ∧
      (∀ k (h : k < cs.length), k < chSearch cs b → fstByte (cs.get ⟨k, h⟩) < b) ∧
      (∀ k (h : k < cs.length), chSearch cs b ≤ k → b ≤ fstByte (cs.get ⟨k, h⟩)) := by
  have hmono : ∀ x y, x ≤ y → y < cs.length →
      (fun i => decide (b ≤ fstByte (cs.getD i (.mk [] none [])))) x = true →
      (fun i => decide (b ≤ fstByte (cs.getD i (.mk [] none [])))) y = true := by
    intro x y hxy hy hfx
    simp only [decide_eq_true_eq] at hfx ⊢
    have hx : x < cs.length := lt_of_le_of_lt hxy hy
    rw [List.getD_eq_get _ _ hx] at hfx
    rw [List.getD_eq_get _ _ hy]
    rcases eq_or_lt_of_le hxy with rfl | hlt
    · exact hfx
    · have := @sorted_get_lt T cs hs ⟨x, hx⟩ ⟨y, hy⟩ hlt
      omega
  obtain ⟨h1, h2, h3⟩ := sortSearch_spec _ cs.length hmono
  refine ⟨h1, ?_, ?_⟩
  · intro k h hk
    have h4 := h2 k hk
    simp only [decide_eq_true_eq] at h4
    rw [List.getD_eq_get _ _ h] at h4
    simp only [decide_eq_false_iff_not] at h4
    omega
  · intro k h hk
    have h4 := h3 k hk h
    simp only [decide_eq_true_eq] at h4
    rwa [List.getD_eq_get _ _ h] at h4

theorem chIndex_some_iff {cs : List (Node T)} (hs : sortedFst cs) {b : Nat}
    {i : Fin cs.length} : chIndex cs b = some i ↔ fstByte (cs.get i) = b := by
  obtain ⟨h1, h2, h3⟩ := chSearch_spec hs b
  constructor
  · intro h
    rw [chIndex] at h
    split at h
    · split at h
      · next heq =>
        cases h
        exact heq
      · exact absurd h (by simp)
    · exact absurd h (by simp)
  · intro h
    have hi : i.1 < cs.length := i.2
    have hle : chSearch cs b ≤ i.1 := by
      by_contra hc
      have := h2 i.1 hi (by omega)
      simp only [Fin.eta] at this
      omega
    have hge : ¬ chSearch cs b < i.1 := by
      intro hc
      have hcs : chSearch cs b < cs.length := by omega
      have hb := h3 (chSearch cs b) hcs le_rfl
      have := @sorted_get_lt T cs hs ⟨chSearch cs b, hcs⟩ i hc
      omega
    have he : chSearch cs b = i.1 := by omega
    rw [chIndex]
    rw [dif_pos (show chSearch cs b < cs.length by omega)]
    rw [if_pos (by rw [show (⟨chSearch cs b, by omega⟩ : Fin cs.length) = i from Fin.ext he]; exact h)]
    congr 1
    exact Fin.ext he

theorem chIndex_none_iff {cs : List (Node T)} (hs : sortedFst cs) {b : Nat} :
    chIndex cs b = none ↔ ∀ c ∈ cs, fstByte c ≠ b := by
  constructor
  · intro h c hc hf
    obtain ⟨j, hj⟩ := List.mem_iff_get.mp hc
    have : chIndex cs b = some j := (chIndex_some_iff hs).mpr (by rw [hj]; exact hf)
    rw [h] at this
    cases this
  · intro h
    cases hidx : chIndex cs b with
    | none => rfl
    | some i =>
      have := (chIndex_some_iff hs).mp hidx
      exact absurd this (h _ (List.get_mem _ _ _))

theorem node_fstByte_inj {cs : List (Node T)} (hs : sortedFst cs) {c c' : Node T}
    (hc : c ∈ cs) (hc' : c' ∈ cs) (h : fstByte c = fstByte c') : c = c' := by
  obtain ⟨i, rfl⟩ := List.mem_iff_get.mp hc
  obtain ⟨j, rfl⟩ := List.mem_iff_get.mp hc'
  rcases lt_trichotomy i j with hij | hij | hij
  · have := sorted_get_lt hs hij
    omega
  · rw [hij]
  · have := sorted_get_lt hs hij
    omega

theorem sortedFst_set {cs : List (Node T)} (hs : sortedFst cs) (i : Fin cs.length)
    {c' : Node T} (h : fstByte c' = fstByte (cs.get i)) : sortedFst (cs.set i.1 c') := by
  rw [sortedFst, List.pairwise_iff_get]
  intro a b hab
  have ha : a.1 < cs.length := by
    have := a.2
    simpa [List.length_set] using this
  have hb : b.1 < cs.length := by
    have := b.2
    simpa [List.length_set] using this
  have hga : (cs.set i.1 c').get a = if i.1 = a.1 then c' else cs.get ⟨a.1, ha⟩ := by
    simp only [List.get_eq_getElem]
    rw [List.getElem_set]
  have hgb : (cs.set i.1 c').get b = if i.1 = b.1 then c' else cs.get ⟨b.1, hb⟩ := by
    simp only [List.get_eq_getElem]
    rw [List.getElem_set]
  rw [hga, hgb]
  have hab' : a.1 < b.1 := hab
  have key : ∀ x y : Fin cs.length, x.1 < y.1 → fstByte (cs.get x) < fstByte (cs.get y) := by
    intro x y hxy
    exact sorted_get_lt hs hxy
  split
  · next hia =>
    rw [if_neg (by omega)]
    rw [h]
    exact key i ⟨b.1, hb⟩ (show i.1 < b.1 by omega)
  · next hia =>
    split
    · next hib =>
      rw [h]
      exact key ⟨a.1, ha⟩ i (show a.1 < i.1 by omega)
    · exact key ⟨a.1, ha⟩ ⟨b.1, hb⟩ (show a.1 < b.1 from hab')

theorem mem_chAdd {cs : List (Node T)} {nd c : Node T} :
    c ∈ chAdd cs nd ↔ c = nd ∨ c ∈ cs := by
  constructor
  · intro h
    rcases List.mem_append.mp h with h | h
    · exact Or.inr ((List.take_sublist _ _).subset h)
    · rcases List.mem_cons.mp h with h | h
      · exact Or.inl h
      · exact Or.inr ((List.drop_sublist _ _).subset h)
  · intro h
    rcases h with rfl | h
    · exact List.mem_append.mpr (Or.inr (List.mem_cons_self _ _))
    · conv at h => rw [← List.take_append_drop (chSearch cs (fstByte nd)) cs]
      rcases List.mem_append.mp h with h | h
      · exact List.mem_append.mpr (Or.inl h)
      · exact List.mem_append.mpr (Or.inr (List.mem_cons_of_mem _ h))

theorem chAdd_sorted {cs : List (Node T)} (hs : sortedFst cs) {nd : Node T}
    (hfresh : ∀ c ∈ cs, fstByte c ≠ fstByte nd) : sortedFst (chAdd cs nd) := by
  obtain ⟨h1, h2, h3⟩ := chSearch_spec hs (fstByte nd)
  rw [chAdd, sortedFst, List.pairwise_append]
  have htake : ∀ c ∈ cs.take (chSearch cs (fstByte nd)), fstByte c < fstByte nd := by
    intro c hc
    rw [List.mem_take_iff_getElem] at hc
    obtain ⟨k, hk, hck⟩ := hc
    have hkl : k < cs.length := lt_of_lt_of_le hk (min_le_right _ _)
    have hkc : k < chSearch cs (fstByte nd) := lt_of_lt_of_le hk (min_le_left _ _)
    have := h2 k hkl hkc
    rwa [show cs.get ⟨k, hkl⟩ = c from hck] at this
  have hdrop : ∀ c ∈ cs.drop (chSearch cs (fstByte nd)), fstByte nd < fstByte c := by
    intro c hc
    rw [List.mem_drop_iff_getElem] at hc
    obtain ⟨k, hk, hck⟩ := hc
    have hkl : chSearch cs (fstByte nd) + k < cs.length := by omega
    have := h3 (chSearch cs (fstByte nd) + k) hkl (by omega)
    have hmem : cs.get ⟨chSearch cs (fstByte nd) + k, hkl⟩ ∈ cs := List.get_mem _ _ _
    have hne := hfresh _ hmem
    rw [show cs.get ⟨chSearch cs (fstByte nd) + k, hkl⟩ = c from hck] at this hne
    omega
  refine ⟨List.Pairwise.sublist (List.take_sublist _ _) hs, ?_, ?_⟩
  · rw [List.pairwise_cons]
    exact ⟨hdrop, List.Pairwise.sublist (List.drop_sublist _ _) hs⟩
  · intro a ha b hb
    rcases List.mem_cons.mp hb with rfl | hb
    · exact htake a ha
    · have h4 := htake a ha
      have h5 := hdrop b hb
      omega

theorem chIndex_of_mem {cs : List (Node T)} (hs : sortedFst cs) {nd : Node T}
    (hmem : nd ∈ cs) : ∃ i, chIndex cs (fstByte nd) = some i ∧ cs.get i = nd := by
  obtain ⟨i, hi⟩ := List.mem_iff_get.mp hmem
  exact ⟨i, (chIndex_some_iff hs).mpr (by rw [hi]), hi⟩

/-! ## Lemmas: entries of a subtree -/

@[simp] theorem entsL_nil : entsL ([] : List (Node T)) = [] := by rw [entsL]

@[simp] theorem entsL_cons (c : Node T) (cs : List (Node T)) :
    entsL (c :: cs) = (entsIn c).map (fun e => (c.pre ++ e.1, e.2)) ++ entsL cs := by
  rw [entsL]

@[simp] theorem entsIn_mk_some (p : Bytes) (x : T) (cs : List (Node T)) :
    entsIn (Node.mk p (some x) cs) = (([] : Bytes), x) :: entsL cs := by
  rw [entsIn]
  rfl

@[simp] theorem entsIn_mk_none (p : Bytes) (cs : List (Node T)) :
    entsIn (Node.mk p (none : Option T) cs) = entsL cs := by
  rw [entsIn]
  rfl

theorem entsIn_node (n : Node T) :
    entsIn n = (match n.val with
      | some x => [(([] : Bytes), x)]
      | none => []) ++ entsL n.children := by
  cases n with
  | mk p v cs => cases v <;> simp

theorem absEnts_mk (p : Bytes) (v : Option T) (cs : List (Node T)) :
    absEnts (Node.mk p v cs) = (entsIn (Node.mk p v cs)).map (fun e => (p ++ e.1, e.2)) := rfl

theorem entsL_append (l r : List (Node T)) : entsL (l ++ r) = entsL l ++ entsL r := by
  induction l with
  | nil => simp
  | cons c l ih => simp [ih]

theorem mem_entsL_iff {cs : List (Node T)} {e : Bytes × T} :
    e ∈ entsL cs ↔ ∃ c ∈ cs, ∃ e1 ∈ entsIn c, e = (c.pre ++ e1.1, e1.2) := by
  induction cs with
  | nil => simp
  | cons c cs ih =>
    simp only [entsL_cons, List.mem_append, List.mem_map, ih, List.mem_cons]
    constructor
    · rintro (⟨e1, he1, rfl⟩ | ⟨c1, hc1, e1, he1, rfl⟩)
      · exact ⟨c, Or.inl rfl, e1, he1, rfl⟩
      · exact ⟨c1, Or.inr hc1, e1, he1, rfl⟩
    · rintro ⟨c1, rfl | hc1, e1, he1, rfl⟩
      · exact Or.inl ⟨e1, he1, rfl⟩
      · exact Or.inr ⟨c1, hc1, e1, he1, rfl⟩

theorem headD_append_of_ne_nil {p : Bytes} (r : Bytes) (hp : p ≠ []) :
    (p ++ r).headD 0 = p.headD 0 := by
  cases p with
  | nil => exact absurd rfl hp
  | cons a as => rfl

theorem keyLt_of_headD_lt {a b : Bytes} (ha : a ≠ []) (hb : b ≠ [])
    (h : a.headD 0 < b.headD 0) : keyLtB a b = true := by
  cases a with
  | nil => exact absurd rfl ha
  | cons x xs =>
    cases b with
    | nil => exact absurd rfl hb
    | cons y ys =>
      simp only [List.headD_cons] at h
      exact keyLt_head xs ys h

/-! ## Lemmas: well-formedness accessors -/

theorem SubOK.pre_ne {n : Node T} (h : SubOK n) : n.pre ≠ [] := by
  cases h with
  | intro p v cs h1 h2 h3 h4 => simpa using h1

theorem SubOK.inv4 {n : Node T} (h : SubOK n) : n.children.length ≤ 1 → n.val.isSome := by
  cases h with
  | intro p v cs h1 h2 h3 h4 => simpa using h2

theorem SubOK.sortedChildren {n : Node T} (h : SubOK n) : sortedFst n.children := by
  cases h with
  | intro p v cs h1 h2 h3 h4 => simpa using h3

theorem SubOK.each {n : Node T} (h : SubOK n) : ∀ c ∈ n.children, SubOK c := by
  cases h with
  | intro p v cs h1 h2 h3 h4 => simpa using h4

theorem SubOK.inner {n : Node T} (h : SubOK n) : innerOK n :=
  ⟨h.sortedChildren, h.each⟩

theorem SubOK.of_parts {n : Node T} (h1 : n.pre ≠ [])
    (h2 : n.children.length ≤ 1 → n.val.isSome) (h3 : innerOK n) : SubOK n := by
  cases n with
  | mk p v cs => exact SubOK.intro p v cs h1 h2 h3.1 h3.2

theorem innerOK_mk {p : Bytes} {v : Option T} {cs : List (Node T)} :
    innerOK (Node.mk p v cs) ↔ sortedFst cs ∧ ∀ c ∈ cs, SubOK c := Iff.rfl

/-- Keys of child entries are non-empty. -/
theorem entsL_key_ne_nil {cs : List (Node T)} (hp : ∀ c ∈ cs, c.pre ≠ [])
    {e : Bytes × T} (he : e ∈ entsL cs) : e.1 ≠ [] := by
  obtain ⟨c, hc, e1, he1, rfl⟩ := mem_entsL_iff.mp he
  have := hp c hc
  intro h
  simp only [List.append_eq_nil] at h
  exact this h.1

/-- The head byte of any entry of the block of a child `c` is `fstByte c`. -/
theorem entsL_key_head {cs : List (Node T)} {c : Node T} (hc : c ∈ cs) (hp : c.pre ≠ [])
    {e1 : Bytes × T} : ((c.pre ++ e1.1 : Bytes)).headD 0 = fstByte c := by
  rw [headD_append_of_ne_nil _ hp]
  rfl

/-! ## Lemmas: sortedness of the entry list -/

theorem entsSorted_map_append (q : Bytes) {l : List (Bytes × T)} (h : entsSorted l) :
    entsSorted (l.map (fun e => (q ++ e.1, e.2))) := by
  rw [entsSorted, List.pairwise_map]
  exact h.imp (fun hab => keyLt_append_left q hab)

theorem entsL_sorted {cs : List (Node T)} (hs : sortedFst cs)
    (hp : ∀ c ∈ cs, c.pre ≠ []) (hev : ∀ c ∈ cs, entsSorted (entsIn c)) :
    entsSorted (entsL cs) := by
  induction cs with
  | nil => simp [entsSorted]
  | cons c cs ih =>
    rw [entsL_cons, entsSorted, List.pairwise_append]
    refine ⟨entsSorted_map_append _ (hev c (List.mem_cons_self _ _)), ?_, ?_⟩
    · exact ih (List.Pairwise.sublist (by simp) hs)
        (fun c1 h1 => hp c1 (List.mem_cons_of_mem _ h1))
        (fun c1 h1 => hev c1 (List.mem_cons_of_mem _ h1))
    · intro a ha b hb
      obtain ⟨e1, he1, rfl⟩ := List.mem_map.mp ha
      obtain ⟨c1, hc1, e2, he2, rfl⟩ := mem_entsL_iff.mp hb
      have hcpre : c.pre ≠ [] := hp c (List.mem_cons_self _ _)
      have hc1pre : c1.pre ≠ [] := hp c1 (List.mem_cons_of_mem _ hc1)
      have hlt : fstByte c < fstByte c1 := by
        rw [sortedFst, List.pairwise_cons] at hs
        exact hs.1 c1 hc1
      apply keyLt_of_headD_lt
      · simp only [ne_eq, List.append_eq_nil, not_and]
        intro h
        exact absurd h hcpre
      · simp only [ne_eq, List.append_eq_nil, not_and]
        intro h
        exact absurd h hc1pre
      · rw [headD_append_of_ne_nil _ hcpre, headD_append_of_ne_nil _ hc1pre]
        exact hlt

theorem entsIn_sorted_node {p : Bytes} {v : Option T} {cs : List (Node T)}
    (hs : sortedFst cs) (hp : ∀ c ∈ cs, c.pre ≠ [])
    (hev : ∀ c ∈ cs, entsSorted (entsIn c)) : entsSorted (entsIn (Node.mk p v cs)) := by
  cases v with
  | none =>
    rw [entsIn_mk_none]
    exact entsL_sorted hs hp hev
  | some x =>
    rw [entsIn_mk_some, entsSorted, List.pairwise_cons]
    refine ⟨?_, entsL_sorted hs hp hev⟩
    intro e he
    have hne := entsL_key_ne_nil hp he
    cases h : e.1 with
    | nil => exact absurd h hne
    | cons b bs => simp [h]

theorem subOK_entsIn_sorted : ∀ n : Node T, SubOK n → entsSorted (entsIn n) := by
  apply Node.ind
  intro p v cs ih h
  exact entsIn_sorted_node h.sortedChildren
    (fun c hc => (h.each c hc).pre_ne)
    (fun c hc => ih c hc (h.each c hc))

theorem innerOK_entsIn_sorted {n : Node T} (h : innerOK n) : entsSorted (entsIn n) := by
  cases n with
  | mk p v cs =>
    exact entsIn_sorted_node h.1 (fun c hc => (h.2 c hc).pre_ne)
      (fun c hc => subOK_entsIn_sorted c (h.2 c hc))

theorem entsSorted_keys_nodup {l : List (Bytes × T)} (h : entsSorted l) :
    (l.map (fun e => e.1)).Nodup := by
  rw [List.Nodup, List.pairwise_map]
  refine h.imp ?_
  intro a b hab heq
  rw [heq] at hab
  rw [keyLt_irrefl] at hab
  exact Bool.false_ne_true hab

theorem entsSorted_val_eq {l : List (Bytes × T)} (h : entsSorted l) {k : Bytes} {x y : T}
    (hx : (k, x) ∈ l) (hy : (k, y) ∈ l) : x = y := by
  induction l with
  | nil => cases hx
  | cons e l ih =>
    rw [entsSorted, List.pairwise_cons] at h
    rcases List.mem_cons.mp hx with hx0 | hx1
    · rcases List.mem_cons.mp hy with hy0 | hy1
      · rw [← hx0] at hy0
        injection hy0 with h1 h2
        exact h2.symm
      · exfalso
        have hk := h.1 _ hy1
        rw [← hx0] at hk
        simp [keyLt_irrefl] at hk
    · rcases List.mem_cons.mp hy with hy0 | hy1
      · exfalso
        have hk := h.1 _ hx1
        rw [← hy0] at hk
        simp [keyLt_irrefl] at hk
      · exact ih h.2 hx1 hy1

/-! ## Lemmas: `Walk` collects the values in entry order -/

@[simp] theorem map_snd_keyShift (q : Bytes) (l : List (Bytes × T)) :
    (l.map (fun e => (q ++ e.1, e.2))).map (fun e => e.2) = l.map (fun e => e.2) := by
  rw [List.map_map]
  rfl

theorem walkL_collect {cs : List (Node T)}
    (hcs : ∀ c ∈ cs, ∀ acc : List T,
      walkN (fun acc x => (acc ++ [x], true)) c acc =
        (acc ++ (entsIn c).map (fun e => e.2), true)) :
    ∀ acc : List T, walkL (fun acc x => (acc ++ [x], true)) cs acc =
      (acc ++ (entsL cs).map (fun e => e.2), true) := by
  induction cs with
  | nil => intro acc; simp [walkL]
  | cons c cs ih =>
    intro acc
    have ih1 := ih (fun c1 h1 => hcs c1 (List.mem_cons_of_mem _ h1))
    rw [walkL]
    simp only [hcs c (List.mem_cons_self _ _), ih1, entsL_cons, List.map_append,
      List.append_assoc, map_snd_keyShift]

theorem walkN_collect : ∀ n : Node T, ∀ acc : List T,
    walkN (fun acc x => (acc ++ [x], true)) n acc =
      (acc ++ (entsIn n).map (fun e => e.2), true) := by
  apply Node.ind
  intro p v cs ih acc
  cases v with
  | some x =>
    rw [walkN]
    simp only [walkL_collect ih]
    simp
  | none =>
    rw [walkN]
    simp only [walkL_collect ih]
    simp

theorem Find_eq_findVals (t : RadixTree T) (p : Bytes) : t.Find p = findVals t.root p := by
  rw [RadixTree.Find, RadixTree.Walk, findVals]
  cases h : walkDescend t.root p with
  | none => rfl
  | some m => simp [walkN_collect]

theorem Values_eq_treeEnts (t : RadixTree T) :
    t.Values = (treeEnts t).map (fun e => e.2) := by
  rw [RadixTree.Values, RadixTree.Walk]
  rw [show walkDescend t.root [] = some t.root from by rw [walkDescend]]
  simp [walkN_collect, treeEnts]

/-! ## Unfolding lemmas for the descent loops -/

@[simp] theorem getN_nil (n : Node T) : getN n [] = n.val := by rw [getN]

theorem getN_cons_none {n : Node T} {k0 : Nat} {ks : Bytes}
    (h : chIndex n.children k0 = none) : getN n (k0 :: ks) = none := by
  rw [getN]
  simp [h]

theorem getN_cons_some {n : Node T} {k0 : Nat} {ks : Bytes} {i : Fin n.children.length}
    (h : chIndex n.children k0 = some i) :
    getN n (k0 :: ks) =
      if bytesHasPre (k0 :: ks) (n.children.get i).pre then
        getN (n.children.get i) ((k0 :: ks).drop (n.children.get i).pre.length)
      else none := by
  rw [getN]
  simp [h]

@[simp] theorem walkDescend_nil (n : Node T) : walkDescend n [] = some n := by
  rw [walkDescend]

theorem walkDescend_cons_none {n : Node T} {k0 : Nat} {ks : Bytes}
    (h : chIndex n.children k0 = none) : walkDescend n (k0 :: ks) = none := by
  rw [walkDescend]
  simp [h]

theorem walkDescend_cons_some {n : Node T} {k0 : Nat} {ks : Bytes} {i : Fin n.children.length}
    (h : chIndex n.children k0 = some i) :
    walkDescend n (k0 :: ks) =
      if bytesHasPre (k0 :: ks) (n.children.get i).pre then
        walkDescend (n.children.get i) ((k0 :: ks).drop (n.children.get i).pre.length)
      else some (n.children.get i) := by
  rw [walkDescend]
  simp [h]

theorem lonN_nil (n : Node T) (last : Option T) : lonN n [] last = last := by rw [lonN]

theorem lonN_cons_none {n : Node T} {k0 : Nat} {ks : Bytes} {last : Option T}
    (h : chIndex n.children k0 = none) : lonN n (k0 :: ks) last = last := by
  rw [lonN]
  simp [h]

theorem lonN_cons_some {n : Node T} {k0 : Nat} {ks : Bytes} {last : Option T}
    {i : Fin n.children.length} (h : chIndex n.children k0 = some i) :
    lonN n (k0 :: ks) last =
      if bytesHasPre (k0 :: ks) (n.children.get i).pre then
        lonN (n.children.get i) ((k0 :: ks).drop (n.children.get i).pre.length)
          (if (n.children.get i).val.isSome then (n.children.get i).val else last)
      else last := by
  rw [lonN]
  simp [h]

theorem insN_nil (v : T) (n : Node T) :
    insN v n [] = (.mk n.pre (some v) n.children,
      match n.val with
      | some old => some old
      | none => none) := by
  rw [insN]
  cases n.val <;> rfl

theorem insN_cons_none {v : T} {n : Node T} {k0 : Nat} {ks : Bytes}
    (h : chIndex n.children k0 = none) :
    insN v n (k0 :: ks) =
      (.mk n.pre n.val (chAdd n.children (.mk (k0 :: ks) (some v) [])), none) := by
  rw [insN]
  simp [h]

theorem insN_cons_split {v : T} {n : Node T} {k0 : Nat} {ks : Bytes}
    {i : Fin n.children.length} (h : chIndex n.children k0 = some i)
    (hl : longestCommonPrefix (k0 :: ks) (n.children.get i).pre <
      (n.children.get i).pre.length) :
    insN v n (k0 :: ks) =
      (.mk n.pre n.val (n.children.set i.1
        (splitNode v (k0 :: ks) (longestCommonPrefix (k0 :: ks) (n.children.get i).pre)
          (n.children.get i))), none) := by
  rw [insN]
  simp only [h, List.get_eq_getElem, List.headD_cons]
  rw [if_pos (by simpa using hl)]

theorem insN_cons_descend {v : T} {n : Node T} {k0 : Nat} {ks : Bytes}
    {i : Fin n.children.length} (h : chIndex n.children k0 = some i)
    (hl : ¬ longestCommonPrefix (k0 :: ks) (n.children.get i).pre <
      (n.children.get i).pre.length) :
    insN v n (k0 :: ks) =
      (.mk n.pre n.val (n.children.set i.1
        (insN v (n.children.get i)
          ((k0 :: ks).drop (longestCommonPrefix (k0 :: ks) (n.children.get i).pre))).1),
       (insN v (n.children.get i)
          ((k0 :: ks).drop (longestCommonPrefix (k0 :: ks) (n.children.get i).pre))).2) := by
  rw [insN]
  simp only [h, List.get_eq_getElem, List.headD_cons]
  rw [if_neg (by simpa using hl)]

theorem removeFrom_cons_none {isRoot : Bool} {n : Node T} {k0 : Nat} {ks : Bytes}
    (h : chIndex n.children k0 = none) : removeFrom isRoot n (k0 :: ks) = none := by
  rw [removeFrom]
  simp [h]

theorem removeFrom_cons_nopre {isRoot : Bool} {n : Node T} {k0 : Nat} {ks : Bytes}
    {i : Fin n.children.length} (h : chIndex n.children k0 = some i)
    (hbp : ¬ bytesHasPre (k0 :: ks) (n.children.get i).pre = true) :
    removeFrom isRoot n (k0 :: ks) = none := by
  rw [removeFrom]
  simp only [h, List.get_eq_getElem, List.headD_cons]
  rw [if_neg (by simpa using hbp)]

theorem removeFrom_cons_land {isRoot : Bool} {n : Node T} {k0 : Nat} {ks : Bytes}
    {i : Fin n.children.length} (h : chIndex n.children k0 = some i)
    (hbp : bytesHasPre (k0 :: ks) (n.children.get i).pre = true)
    (hd : (k0 :: ks).drop (n.children.get i).pre.length = []) :
    removeFrom isRoot n (k0 :: ks) =
      match (n.children.get i).val with
      | none => none
      | some v => some (removeAt isRoot n i, v) := by
  rw [removeFrom]
  simp only [h, List.get_eq_getElem, List.headD_cons]
  rw [if_pos (by simpa using hbp), if_pos (by simpa using hd)]

theorem removeFrom_cons_descend {isRoot : Bool} {n : Node T} {k0 : Nat} {ks : Bytes}
    {i : Fin n.children.length} (h : chIndex n.children k0 = some i)
    (hbp : bytesHasPre (k0 :: ks) (n.children.get i).pre = true)
    (hd : (k0 :: ks).drop (n.children.get i).pre.length ≠ []) :
    removeFrom isRoot n (k0 :: ks) =
      match removeFrom false (n.children.get i)
          ((k0 :: ks).drop (n.children.get i).pre.length) with
      | none => none
      | some (c1, v) => some (.mk n.pre n.val (n.children.set i.1 c1), v) := by
  rw [removeFrom]
  simp only [h, List.get_eq_getElem, List.headD_cons]
  rw [if_pos (by simpa using hbp), if_neg (by simpa using hd)]

/-! ## Lemmas: membership in the entry list -/

theorem mem_entsIn_mk {p : Bytes} {v : Option T} {cs : List (Node T)} {e : Bytes × T} :
    e ∈ entsIn (Node.mk p v cs) ↔ (e.1 = [] ∧ v = some e.2) ∨ e ∈ entsL cs := by
  cases v with
  | none => simp
  | some x =>
    rw [entsIn_mk_some, List.mem_cons]
    constructor
    · rintro (rfl | h)
      · exact Or.inl ⟨rfl, rfl⟩
      · exact Or.inr h
    · rintro (⟨h1, h2⟩ | h)
      · left
        cases e with
        | mk a b =>
          simp only at h1
          injection h2 with h2
          simp [h1, h2]
      · exact Or.inr h

/-- In a sorted, well-formed children list, a non-empty key can only come
from the block of the (unique) child whose first byte matches. -/
theorem mem_entsL_block {cs : List (Node T)} (hs : sortedFst cs)
    (hsub : ∀ c ∈ cs, SubOK c) {i : Fin cs.length} {key : Bytes} {x : T}
    (hfst : key.headD 0 = fstByte (cs.get i)) :
    ((key, x) ∈ entsL cs ↔
      ∃ e1 ∈ entsIn (cs.get i), key = (cs.get i).pre ++ e1.1 ∧ x = e1.2) := by
  constructor
  · intro h
    obtain ⟨c1, hc1, e1, he1, heq⟩ := mem_entsL_iff.mp h
    injection heq with hk hx
    have hc1pre := (hsub c1 hc1).pre_ne
    have hhead : fstByte c1 = key.headD 0 := by
      rw [hk, headD_append_of_ne_nil _ hc1pre]
      rfl
    have hceq : c1 = cs.get i :=
      node_fstByte_inj hs hc1 (List.get_mem _ _ _) (by rw [hhead, hfst])
    subst hceq
    exact ⟨e1, he1, hk, hx⟩
  · rintro ⟨e1, he1, hk, hx⟩
    exact mem_entsL_iff.mpr ⟨cs.get i, List.get_mem _ _ _, e1, he1, by rw [hk, hx]⟩

/-- A key whose first byte matches no child is in no block. -/
theorem not_mem_entsL {cs : List (Node T)} (hsub : ∀ c ∈ cs, SubOK c)
    {key : Bytes} {x : T} (hall : ∀ c ∈ cs, fstByte c ≠ key.headD 0) :
    (key, x) ∉ entsL cs := by
  intro h
  obtain ⟨c1, hc1, e1, he1, heq⟩ := mem_entsL_iff.mp h
  injection heq with hk hx
  have hc1pre := (hsub c1 hc1).pre_ne
  have hhead : fstByte c1 = key.headD 0 := by
    rw [hk, headD_append_of_ne_nil _ hc1pre]
    rfl
  exact hall c1 hc1 hhead

/-! ## Lemmas: `Get` finds exactly the stored entries -/

theorem getN_iff_mem : ∀ n : Node T, innerOK n → ∀ key (x : T),
    (getN n key = some x ↔ (key, x) ∈ entsIn n) := by
  apply Node.ind
  intro p v cs ih hOK key x
  obtain ⟨hs, hsub⟩ := hOK
  simp only [Node.children_mk] at hs hsub
  cases key with
  | nil =>
    rw [getN_nil, Node.val_mk, mem_entsIn_mk]
    have hnil : (([] : Bytes), x) ∉ entsL cs := by
      intro h
      exact entsL_key_ne_nil (fun c hc => (hsub c hc).pre_ne) h rfl
    constructor
    · intro h
      exact Or.inl ⟨rfl, h⟩
    · rintro (⟨h1, h2⟩ | h)
      · exact h2
      · exact absurd h hnil
  | cons k0 ks =>
    cases hidx : chIndex (Node.mk p v cs).children k0 with
    | none =>
      rw [getN_cons_none hidx]
      simp only [Node.children_mk] at hidx
      have hall := (chIndex_none_iff hs).mp hidx
      rw [mem_entsIn_mk]
      constructor
      · intro h
        cases h
      · rintro (⟨h1, h2⟩ | h)
        · cases h1
        · exact absurd h (not_mem_entsL hsub (by simpa using hall))
    | some i =>
      rw [getN_cons_some hidx]
      simp only [Node.children_mk] at hidx
      have hfst : fstByte (cs.get i) = k0 := (chIndex_some_iff hs).mp hidx
      have hblock := @mem_entsL_block T cs hs hsub i (k0 :: ks) x
        (by simp only [List.headD_cons]; exact hfst.symm)
      rw [mem_entsIn_mk]
      by_cases hbp : bytesHasPre (k0 :: ks) ((Node.mk p v cs).children.get i).pre = true
      · rw [if_pos hbp]
        simp only [Node.children_mk] at hbp ⊢
        obtain ⟨r, hr⟩ := bytesHasPre_iff.mp hbp
        have hdrop : (k0 :: ks).drop (cs.get i).pre.length = r := by
          rw [hr]
          exact List.drop_left _ _
        rw [hdrop]
        have hIH := ih (cs.get i) (List.get_mem _ _ _) (hsub _ (List.get_mem _ _ _)).inner r x
        rw [hIH]
        constructor
        · intro h
          exact Or.inr (hblock.mpr ⟨(r, x), h, hr, rfl⟩)
        · rintro (⟨h1, h2⟩ | h)
          · exact absurd h1 (by simp)
          · obtain ⟨e1, he1, hk, hx⟩ := hblock.mp h
            have he1r : e1.1 = r := List.append_cancel_left (hk.symm.trans hr)
            cases e1 with
            | mk a b =>
              simp only at he1r hx
              subst he1r
              subst hx
              exact he1
      · rw [if_neg hbp]
        simp only [Node.children_mk] at hbp
        constructor
        · intro h
          cases h
        · rintro (⟨h1, h2⟩ | h)
          · exact absurd h1 (by simp)
          · obtain ⟨e1, he1, hk, hx⟩ := hblock.mp h
            exact absurd (by rw [hk]; exact bytesHasPre_append _ _) hbp

/-! ## Lemmas: only one child block can satisfy a head-determined filter -/

theorem filter_entsL_eq_block {cs : List (Node T)} (hs : sortedFst cs)
    (hsub : ∀ c ∈ cs, SubOK c) {c : Node T} (hc : c ∈ cs) {P : Bytes × T → Bool}
    (hP : ∀ e ∈ entsL cs, P e = true → e.1.headD 0 = fstByte c) :
    (entsL cs).filter P = ((entsIn c).map (fun e => (c.pre ++ e.1, e.2))).filter P := by
  induction cs with
  | nil => cases hc
  | cons c1 cs ih =>
    rw [entsL_cons, List.filter_append]
    rw [sortedFst, List.pairwise_cons] at hs
    rcases List.mem_cons.mp hc with rfl | hc1
    · have htail : (entsL cs).filter P = [] := by
        rw [List.filter_eq_nil_iff]
        intro e he hPe
        have hhead := hP e (by
          rw [entsL_cons]
          exact List.mem_append.mpr (Or.inr he)) hPe
        obtain ⟨c2, hc2, e1, he1, rfl⟩ := mem_entsL_iff.mp he
        have hc2pre := (hsub c2 (List.mem_cons_of_mem _ hc2)).pre_ne
        rw [headD_append_of_ne_nil _ hc2pre] at hhead
        have hlt : fstByte c < fstByte c2 := hs.1 c2 hc2
        have : fstByte c2 = fstByte c := hhead
        omega
      rw [htail, List.append_nil]
    · have hblk : ((entsIn c1).map (fun e => (c1.pre ++ e.1, e.2))).filter P = [] := by
        rw [List.filter_eq_nil_iff]
        intro e he hPe
        have hhead := hP e (by
          rw [entsL_cons]
          exact List.mem_append.mpr (Or.inl he)) hPe
        obtain ⟨e1, he1, rfl⟩ := List.mem_map.mp he
        have hc1pre := (hsub c1 (List.mem_cons_self _ _)).pre_ne
        rw [headD_append_of_ne_nil _ hc1pre] at hhead
        have hlt : fstByte c1 < fstByte c := hs.1 c hc1
        have : fstByte c1 = fstByte c := hhead
        omega
      rw [hblk, List.nil_append]
      exact ih hs.2 (fun c2 h2 => hsub c2 (List.mem_cons_of_mem _ h2)) hc1
        (fun e he hPe => hP e (by
          rw [entsL_cons]
          exact List.mem_append.mpr (Or.inr he)) hPe)

theorem findVals_of_descend {n : Node T} {p : Bytes} {m : Node T}
    (h : walkDescend n p = some m) : findVals n p = (entsIn m).map (fun e => e.2) := by
  rw [findVals, h]

theorem findVals_of_miss {n : Node T} {p : Bytes} (h : walkDescend n p = none) :
    findVals n p = [] := by
  rw [findVals, h]

/-! ## Lemmas: what `Find` returns -/

theorem findVals_spec : ∀ n : Node T, innerOK n → ∀ p : Bytes,
    (∃ e ∈ entsIn n, bytesHasPre e.1 p = true) →
    findVals n p = ((entsIn n).filter (fun e => bytesHasPre e.1 p)).map (fun e => e.2) := by
  apply Node.ind
  intro pp v cs ih hOK p hex
  obtain ⟨hs, hsub⟩ := hOK
  simp only [Node.children_mk] at hs hsub
  cases p with
  | nil =>
    rw [findVals_of_descend (walkDescend_nil _)]
    rw [List.filter_congr (fun e _ => by rw [bytesHasPre_nil])]
    rw [List.filter_true]
  | cons k0 ks =>
    cases hidx : chIndex (Node.mk pp v cs).children k0 with
    | none =>
      rw [findVals_of_miss (walkDescend_cons_none hidx)]
      simp only [Node.children_mk] at hidx
      have hall := (chIndex_none_iff hs).mp hidx
      have hfil : (entsIn (Node.mk pp v cs)).filter (fun e => bytesHasPre e.1 (k0 :: ks)) = [] := by
        rw [List.filter_eq_nil_iff]
        intro e he hPe
        rcases mem_entsIn_mk.mp he with ⟨h1, h2⟩ | he1
        · rw [h1] at hPe
          simp at hPe
        · obtain ⟨c2, hc2, e1, he2, rfl⟩ := mem_entsL_iff.mp he1
          obtain ⟨q, hq⟩ := bytesHasPre_iff.mp hPe
          have hc2pre := (hsub c2 hc2).pre_ne
          have : fstByte c2 = k0 := by
            have h3 : ((c2.pre ++ e1.1 : Bytes)).headD 0 = fstByte c2 :=
              headD_append_of_ne_nil _ hc2pre
            simp only at hq
            rw [hq] at h3
            simpa using h3.symm
          exact hall c2 hc2 this
      rw [hfil]
      rfl
    | some i =>
      simp only [Node.children_mk] at hidx
      have hfst : fstByte (cs.get i) = k0 := (chIndex_some_iff hs).mp hidx
      have hcpre := (hsub _ (List.get_mem cs i.1 i.2)).pre_ne
      -- every entry with `p` as a key-prefix lies in the block of child `i`
      have hwit : ∀ e ∈ entsIn (Node.mk pp v cs), bytesHasPre e.1 (k0 :: ks) = true →
          ∃ e1 ∈ entsIn (cs.get i), e = ((cs.get i).pre ++ e1.1, e1.2) := by
        intro e he hPe
        rcases mem_entsIn_mk.mp he with ⟨h1, h2⟩ | he1
        · rw [h1] at hPe
          simp at hPe
        · obtain ⟨q, hq⟩ := bytesHasPre_iff.mp hPe
          have hhd : e.1.headD 0 = fstByte (cs.get i) := by
            rw [hq, hfst]
            rfl
          obtain ⟨e1, he1m, hk, hx⟩ :=
            (@mem_entsL_block T cs hs hsub i e.1 e.2 hhd).mp
              (by rw [Prod.mk.eta]; exact he1)
          refine ⟨e1, he1m, ?_⟩
          rw [← hk, ← hx, Prod.mk.eta]
      have hP2head : ∀ e ∈ entsL cs, bytesHasPre e.1 (k0 :: ks) = true →
          e.1.headD 0 = fstByte (cs.get i) := by
        intro e he hPe
        obtain ⟨q, hq⟩ := bytesHasPre_iff.mp hPe
        rw [hq, hfst]
        rfl
      have hown : ∀ x : T, bytesHasPre ([] : Bytes) (k0 :: ks) = false := fun _ => rfl
      have hsplit : (entsIn (Node.mk pp v cs)).filter (fun e => bytesHasPre e.1 (k0 :: ks)) =
          (((entsIn (cs.get i)).map (fun e => ((cs.get i).pre ++ e.1, e.2))).filter
            (fun e => bytesHasPre e.1 (k0 :: ks))) := by
        rw [entsIn_node]
        simp only [Node.children_mk, Node.val_mk]
        rw [List.filter_append]
        rw [filter_entsL_eq_block hs hsub (List.get_mem cs i.1 i.2) hP2head]
        cases v with
        | none => simp
        | some x => simp
      by_cases hbp : bytesHasPre (k0 :: ks) (cs.get i).pre = true
      · -- full edge match: descend into the child
        obtain ⟨p1, hp1⟩ := bytesHasPre_iff.mp hbp
        have hdrop : (k0 :: ks).drop (cs.get i).pre.length = p1 := by
          rw [hp1]
          exact List.drop_left _ _
        have hwd : walkDescend (Node.mk pp v cs) (k0 :: ks) = walkDescend (cs.get i) p1 := by
          rw [walkDescend_cons_some (by simpa using hidx)]
          simp only [Node.children_mk]
          rw [if_pos hbp, hdrop]
        have hfv : findVals (Node.mk pp v cs) (k0 :: ks) = findVals (cs.get i) p1 := by
          rw [findVals, hwd, findVals]
        obtain ⟨e, he, hPe⟩ := hex
        obtain ⟨e1, he1, heq⟩ := hwit e he hPe
        have hPe1 : bytesHasPre e1.1 p1 = true := by
          rw [heq] at hPe
          simp only at hPe
          rw [hp1, bytesHasPre_cancel] at hPe
          exact hPe
        have hIH := ih (cs.get i) (List.get_mem cs i.1 i.2)
          (hsub _ (List.get_mem cs i.1 i.2)).inner p1 ⟨e1, he1, hPe1⟩
        rw [hfv, hIH, hsplit]
        rw [List.filter_map]
        have hcongr : ((fun e => bytesHasPre e.1 (k0 :: ks)) ∘
            (fun e : Bytes × T => ((cs.get i).pre ++ e.1, e.2))) =
            fun e : Bytes × T => bytesHasPre ((cs.get i).pre ++ e.1) (k0 :: ks) := rfl
        rw [hcongr]
        rw [map_snd_keyShift]
        have hfin : List.filter (fun e : Bytes × T => bytesHasPre ((cs.get i).pre ++ e.1) (k0 :: ks))
            (entsIn (cs.get i)) =
            List.filter (fun e : Bytes × T => bytesHasPre e.1 p1) (entsIn (cs.get i)) := by
          apply List.filter_congr
          intro e2 he2
          rw [hp1, bytesHasPre_cancel]
        rw [hfin]
      · -- partial trailing match: the walk starts at the child itself
        obtain ⟨e, he, hPe⟩ := hex
        obtain ⟨e1, he1, heq⟩ := hwit e he hPe
        have htrail : bytesHasPre (cs.get i).pre (k0 :: ks) = true := by
          rw [heq] at hPe
          simp only at hPe
          by_cases hlen : (k0 :: ks).length ≤ (cs.get i).pre.length
          · exact bytesHasPre_of_shorter hPe (bytesHasPre_append _ _) hlen
          · exact absurd (bytesHasPre_of_shorter (bytesHasPre_append _ _) hPe (by omega)) hbp
        have hwd : walkDescend (Node.mk pp v cs) (k0 :: ks) = some (cs.get i) := by
          rw [walkDescend_cons_some (by simpa using hidx)]
          simp only [Node.children_mk]
          rw [if_neg (by simpa using hbp)]
        rw [findVals_of_descend hwd, hsplit]
        rw [List.filter_eq_self.mpr ?_]
        · rw [map_snd_keyShift]
        · intro e2 he2
          obtain ⟨e1', he1', rfl⟩ := List.mem_map.mp he2
          simp only
          exact bytesHasPre_trans (bytesHasPre_append _ _) htrail

/-! ## Lemmas: what `LongestPrefix` returns -/

theorem headD_of_append_eq_cons {e q : Bytes} {k0 : Nat} {ks : Bytes}
    (hne : e ≠ []) (h : e ++ q = k0 :: ks) : e.headD 0 = k0 := by
  cases e with
  | nil => exact absurd rfl hne
  | cons a as =>
    simp only [List.cons_append, List.cons.injEq] at h
    simpa using h.1

theorem lastVal_map_shift (q : Bytes) (l : List (Bytes × T)) (d : Option T) :
    lastVal (l.map (fun e => (q ++ e.1, e.2))) d = lastVal l d := by
  rw [lastVal, lastVal, List.getLast?_map]
  cases l.getLast? <;> rfl

theorem lastVal_own_append (o : Option T) (L : List (Bytes × T)) (d : Option T) :
    lastVal ((match o with | some x => [(([] : Bytes), x)] | none => []) ++ L) d =
      lastVal L (if o.isSome then o else d) := by
  cases o with
  | none => simp [lastVal]
  | some x =>
    rw [lastVal, List.getLast?_append]
    cases hg : L.getLast? with
    | none => simp [lastVal, hg]
    | some e => simp [lastVal, hg]

theorem lon_master : ∀ n : Node T, innerOK n → ∀ (k : Bytes) (last : Option T),
    lonN n k last = lastVal (lonCands n k) last := by
  apply Node.ind
  intro pp v cs ih hOK k last
  obtain ⟨hs, hsub⟩ := hOK
  simp only [Node.children_mk] at hs hsub
  cases k with
  | nil =>
    rw [lonN_nil, lonCands]
    have hfil : (entsIn (Node.mk pp v cs)).filter
        (fun e => !e.1.isEmpty && bytesHasPre [] e.1) = [] := by
      rw [List.filter_eq_nil_iff]
      intro e he hPe
      simp only [Bool.and_eq_true, Bool.not_eq_true'] at hPe
      obtain ⟨h1, h2⟩ := hPe
      cases hk : e.1 with
      | nil => rw [hk] at h1; simp at h1
      | cons a as => rw [hk] at h2; simp at h2
    rw [hfil]
    rfl
  | cons k0 ks =>
    cases hidx : chIndex (Node.mk pp v cs).children k0 with
    | none =>
      rw [lonN_cons_none hidx]
      simp only [Node.children_mk] at hidx
      have hall := (chIndex_none_iff hs).mp hidx
      have hfil : lonCands (Node.mk pp v cs) (k0 :: ks) = [] := by
        rw [lonCands, List.filter_eq_nil_iff]
        intro e he hPe
        simp only [Bool.and_eq_true, Bool.not_eq_true'] at hPe
        obtain ⟨h1, h2⟩ := hPe
        rcases mem_entsIn_mk.mp he with ⟨hk, hv⟩ | he1
        · rw [hk] at h1; simp at h1
        · obtain ⟨c2, hc2, e1, he2, rfl⟩ := mem_entsL_iff.mp he1
          obtain ⟨q, hq⟩ := bytesHasPre_iff.mp h2
          have hc2pre := (hsub c2 hc2).pre_ne
          have hh : ((c2.pre ++ e1.1 : Bytes)).headD 0 = k0 :=
            headD_of_append_eq_cons (by simp [hc2pre]) hq.symm
          rw [headD_append_of_ne_nil _ hc2pre] at hh
          exact hall c2 hc2 hh
      rw [hfil]
      rfl
    | some i =>
      simp only [Node.children_mk] at hidx
      have hfst : fstByte (cs.get i) = k0 := (chIndex_some_iff hs).mp hidx
      have hcmem : cs.get i ∈ cs := List.get_mem cs i.1 i.2
      have hcpre := (hsub _ hcmem).pre_ne
      by_cases hbp : bytesHasPre (k0 :: ks) (cs.get i).pre = true
      · obtain ⟨k1, hk1⟩ := bytesHasPre_iff.mp hbp
        have hdrop : (k0 :: ks).drop (cs.get i).pre.length = k1 := by
          rw [hk1]
          exact List.drop_left _ _
        rw [lonN_cons_some (by simpa using hidx)]
        simp only [Node.children_mk]
        rw [if_pos hbp, hdrop]
        have hP2head : ∀ e ∈ entsL cs, (!e.1.isEmpty && bytesHasPre (k0 :: ks) e.1) = true →
            e.1.headD 0 = fstByte (cs.get i) := by
          intro e he hPe
          simp only [Bool.and_eq_true, Bool.not_eq_true'] at hPe
          obtain ⟨h1, h2⟩ := hPe
          obtain ⟨q, hq⟩ := bytesHasPre_iff.mp h2
          rw [hfst]
          exact headD_of_append_eq_cons (by
            intro hnil
            rw [hnil] at h1
            simp at h1) hq.symm
        have hsplit : lonCands (Node.mk pp v cs) (k0 :: ks) =
            ((entsIn (cs.get i)).map (fun e => ((cs.get i).pre ++ e.1, e.2))).filter
              (fun e => !e.1.isEmpty && bytesHasPre (k0 :: ks) e.1) := by
          rw [lonCands, entsIn_node]
          simp only [Node.children_mk, Node.val_mk]
          rw [List.filter_append]
          rw [filter_entsL_eq_block hs hsub hcmem hP2head]
          cases v with
          | none => simp
          | some x => simp
        rw [hsplit, List.filter_map]
        have hinner : List.filter ((fun e : Bytes × T => !e.1.isEmpty &&
              bytesHasPre (k0 :: ks) e.1) ∘ (fun e => ((cs.get i).pre ++ e.1, e.2)))
            (entsIn (cs.get i)) =
            List.filter (fun e : Bytes × T => bytesHasPre k1 e.1) (entsIn (cs.get i)) := by
          apply List.filter_congr
          intro e2 he2
          simp only [Function.comp_apply]
          have hie : ((cs.get i).pre ++ e2.1 : Bytes).isEmpty = false := by
            cases hp : (cs.get i).pre with
            | nil => exact absurd hp hcpre
            | cons a as => rfl
          rw [hk1, bytesHasPre_cancel, hie]
          simp
        rw [hinner, lastVal_map_shift]
        have hF : List.filter (fun e : Bytes × T => bytesHasPre k1 e.1) (entsIn (cs.get i)) =
            (match (cs.get i).val with
             | some x => [(([] : Bytes), x)]
             | none => []) ++ lonCands (cs.get i) k1 := by
          rw [lonCands, entsIn_node, List.filter_append, List.filter_append]
          have hown : List.filter (fun e : Bytes × T => bytesHasPre k1 e.1)
              (match (cs.get i).val with
               | some x => [(([] : Bytes), x)]
               | none => []) =
              (match (cs.get i).val with
               | some x => [(([] : Bytes), x)]
               | none => []) := by
            cases (cs.get i).val <;> simp
          have hown2 : List.filter (fun e : Bytes × T => !e.1.isEmpty && bytesHasPre k1 e.1)
              (match (cs.get i).val with
               | some x => [(([] : Bytes), x)]
               | none => []) = [] := by
            cases (cs.get i).val <;> simp
          have hrest : List.filter (fun e : Bytes × T => bytesHasPre k1 e.1)
              (entsL (cs.get i).children) =
              List.filter (fun e : Bytes × T => !e.1.isEmpty && bytesHasPre k1 e.1)
                (entsL (cs.get i).children) := by
            apply List.filter_congr
            intro e2 he2
            have hne := entsL_key_ne_nil (fun c hc => ((hsub _ hcmem).each c hc).pre_ne) he2
            simp [hne]
          rw [hown, hown2, hrest]
          rfl
        rw [hF, lastVal_own_append]
        exact ih (cs.get i) hcmem (hsub _ hcmem).inner k1 _
      · rw [lonN_cons_some (by simpa using hidx)]
        simp only [Node.children_mk]
        rw [if_neg (by simpa using hbp)]
        have hfil : lonCands (Node.mk pp v cs) (k0 :: ks) = [] := by
          rw [lonCands, List.filter_eq_nil_iff]
          intro e he hPe
          simp only [Bool.and_eq_true, Bool.not_eq_true'] at hPe
          obtain ⟨h1, h2⟩ := hPe
          rcases mem_entsIn_mk.mp he with ⟨hk, hv⟩ | he1
          · rw [hk] at h1; simp at h1
          · obtain ⟨c2, hc2, e1, he2, rfl⟩ := mem_entsL_iff.mp he1
            obtain ⟨q, hq⟩ := bytesHasPre_iff.mp h2
            simp only at hq
            have hc2pre := (hsub c2 hc2).pre_ne
            have hh : ((c2.pre ++ e1.1 : Bytes)).headD 0 = k0 :=
              headD_of_append_eq_cons (by simp [hc2pre]) hq.symm
            rw [headD_append_of_ne_nil _ hc2pre] at hh
            have hceq : c2 = cs.get i := node_fstByte_inj hs hc2 hcmem (by rw [hfst]; exact hh)
            have hnew : bytesHasPre (k0 :: ks) (cs.get i).pre = true := by
              rw [← hceq]
              apply bytesHasPre_iff.mpr
              exact ⟨e1.1 ++ q, by rw [hq, List.append_assoc]⟩
            exact absurd hnew hbp
        rw [hfil]
        rfl

/-! ## Lemmas: decomposing the children list at an index -/

theorem sorted_take_facts {cs : List (Node T)} (hs : sortedFst cs) (i : Fin cs.length) :
    ∀ c' ∈ cs.take i.1, fstByte c' < fstByte (cs.get i) := by
  intro c' hc'
  rw [List.mem_take_iff_getElem] at hc'
  obtain ⟨k, hk, hck⟩ := hc'
  have hkl : k < cs.length := lt_of_lt_of_le hk (min_le_right _ _)
  have hki : k < i.1 := lt_of_lt_of_le hk (min_le_left _ _)
  have := @sorted_get_lt T cs hs ⟨k, hkl⟩ i hki
  rwa [show cs.get ⟨k, hkl⟩ = c' from hck] at this

theorem sorted_drop_facts {cs : List (Node T)} (hs : sortedFst cs) (i : Fin cs.length) :
    ∀ c' ∈ cs.drop (i.1 + 1), fstByte (cs.get i) < fstByte c' := by
  intro c' hc'
  rw [List.mem_drop_iff_getElem] at hc'
  obtain ⟨k, hk, hck⟩ := hc'
  have hkl : i.1 + 1 + k < cs.length := by omega
  have := @sorted_get_lt T cs hs i ⟨i.1 + 1 + k, hkl⟩ (show i.1 < i.1 + 1 + k by omega)
  rwa [show cs.get ⟨i.1 + 1 + k, hkl⟩ = c' from hck] at this

theorem entsL_decomp (cs : List (Node T)) (i : Fin cs.length) :
    entsL cs = entsL (cs.take i.1) ++ absEnts (cs.get i) ++ entsL (cs.drop (i.1 + 1)) := by
  conv_lhs => rw [← List.take_append_drop i.1 cs]
  rw [entsL_append, List.drop_eq_getElem_cons i.2, entsL_cons]
  rw [List.append_assoc]
  rfl

theorem entsL_set_decomp (cs : List (Node T)) (i : Fin cs.length) (c' : Node T) :
    entsL (cs.set i.1 c') =
      entsL (cs.take i.1) ++ absEnts c' ++ entsL (cs.drop (i.1 + 1)) := by
  rw [List.set_eq_take_cons_drop c' i.2, entsL_append, entsL_cons, List.append_assoc]
  rfl

theorem entsL_erase_decomp (cs : List (Node T)) (i : Fin cs.length) :
    entsL (cs.eraseIdx i.1) = entsL (cs.take i.1) ++ entsL (cs.drop (i.1 + 1)) := by
  rw [List.eraseIdx_eq_take_drop_succ, entsL_append]

theorem chAdd_nil (nd : Node T) : chAdd [] nd = [nd] := rfl

theorem chAdd_length (cs : List (Node T)) (nd : Node T) :
    (chAdd cs nd).length = cs.length + 1 := by
  rw [chAdd]
  simp only [List.length_append, List.length_cons, List.length_take, List.length_drop]
  omega

theorem headD_take {key : Bytes} {l : Nat} (hl : 0 < l) :
    (key.take l).headD 0 = key.headD 0 := by
  cases key with
  | nil => rw [List.take_nil]
  | cons a as =>
    cases l with
    | zero => omega
    | succ l => simp [List.take_succ_cons]

/-! ## Lemmas: `absEnts` and merging -/

theorem absEnts_entsIn (n : Node T) (h : n.pre = []) : absEnts n = entsIn n := by
  rw [absEnts, h]
  simp

/-- Merging a valueless single-child node does not change the entries it
contributes to its parent. -/
theorem absEnts_mergeNode (p : Bytes) (d : Node T) :
    absEnts (mergeNode (Node.mk p none [d])) = absEnts (Node.mk p none [d]) := by
  rw [show mergeNode (Node.mk p none [d]) = Node.mk (p ++ d.pre) d.val d.children from rfl]
  rw [absEnts, absEnts]
  rw [entsIn_node (Node.mk (p ++ d.pre) d.val d.children), entsIn_node (Node.mk p none [d])]
  simp only [Node.pre_mk, Node.val_mk, Node.children_mk, entsL_cons, entsL_nil,
    List.append_nil, List.map_map]
  rw [entsIn_node d]
  simp only [List.nil_append, List.map_map]
  apply List.map_congr_left
  intro e he
  simp [Function.comp, List.append_assoc]

theorem filter_map_shift_ne (q key : Bytes) (l : List (Bytes × T)) :
    ((l.map (fun e => (q ++ e.1, e.2))).filter (fun e => decide (e.1 ≠ q ++ key))) =
      (l.filter (fun e => decide (e.1 ≠ key))).map (fun e => (q ++ e.1, e.2)) := by
  rw [List.filter_map]
  congr 1
  apply List.filter_congr
  intro e he
  simp only [Function.comp_apply, decide_eq_decide]
  constructor
  · intro h hk
    exact h (by rw [hk])
  · intro h hk
    exact h (List.append_cancel_left hk)

theorem filter_ne_of_all_ne {key : Bytes} {l : List (Bytes × T)}
    (h : ∀ e ∈ l, e.1 ≠ key) : l.filter (fun e => decide (e.1 ≠ key)) = l := by
  rw [List.filter_eq_self]
  intro e he
  simpa using h e he

/-! ## Lemmas: `Insert` -/

theorem insN_pre (v : T) (n : Node T) (key : Bytes) : (insN v n key).1.pre = n.pre := by
  cases key with
  | nil => rw [insN_nil]; rfl
  | cons k0 ks =>
    cases hidx : chIndex n.children k0 with
    | none => rw [insN_cons_none hidx]; rfl
    | some i =>
      by_cases hl : longestCommonPrefix (k0 :: ks) (n.children.get i).pre <
          (n.children.get i).pre.length
      · rw [insN_cons_split hidx hl]; rfl
      · rw [insN_cons_descend hidx hl]; rfl

theorem subOK_leaf (key : Bytes) (hk : key ≠ []) (v : T) :
    SubOK (Node.mk key (some v) ([] : List (Node T))) :=
  SubOK.intro _ _ _ hk (fun _ => rfl) (List.Pairwise.nil)
    (fun c hc => absurd hc (List.not_mem_nil c))

/-- `entsIn` does not look at a node's own prefix. -/
theorem entsIn_retag (q : Bytes) (n : Node T) :
    entsIn (Node.mk q n.val n.children) = entsIn n := by
  rw [entsIn_node (Node.mk q n.val n.children), entsIn_node n]
  simp

theorem entsL_chAdd_length (cs : List (Node T)) (nd : Node T) :
    (entsL (chAdd cs nd)).length = (entsL cs).length + (entsIn nd).length := by
  rw [chAdd, entsL_append, entsL_cons]
  conv_rhs => rw [← List.take_append_drop (chSearch cs (fstByte nd)) cs]
  rw [entsL_append]
  simp only [List.length_append, List.length_map]
  omega

theorem subOK_splitNode {child : Node T} (hchild : SubOK child) (v : T) {key : Bytes}
    (hk : key ≠ []) (hhd : key.headD 0 = fstByte child)
    (hl : longestCommonPrefix key child.pre < child.pre.length) :
    SubOK (splitNode v key (longestCommonPrefix key child.pre) child) ∧
    fstByte (splitNode v key (longestCommonPrefix key child.pre) child) = key.headD 0 := by
  have hcpre := hchild.pre_ne
  have hpos : 0 < longestCommonPrefix key child.pre := lcm_pos hk hcpre hhd
  have htake_ne : key.take (longestCommonPrefix key child.pre) ≠ [] := by
    intro hcon
    rcases List.take_eq_nil_iff.mp hcon with h | h
    · omega
    · exact hk h
  have hdrop_ne : child.pre.drop (longestCommonPrefix key child.pre) ≠ [] := by
    intro hcon
    rw [List.drop_eq_nil_iff] at hcon
    omega
  have hchild1 : SubOK (Node.mk (child.pre.drop (longestCommonPrefix key child.pre))
      child.val child.children) :=
    SubOK.intro _ _ _ hdrop_ne hchild.inv4 hchild.sortedChildren hchild.each
  have hfb : ∀ (w : Option T) (l : List (Node T)),
      fstByte (Node.mk (key.take (longestCommonPrefix key child.pre)) w l) = key.headD 0 := by
    intro w l
    rw [fstByte, Node.pre_mk]
    exact headD_take hpos
  rw [splitNode]
  by_cases hrest : key.drop (longestCommonPrefix key child.pre) = []
  · rw [if_pos hrest]
    refine ⟨SubOK.intro _ _ _ htake_ne (fun _ => rfl) ?_ ?_, hfb _ _⟩
    · rw [chAdd_nil]
      exact List.pairwise_singleton _ _
    · rw [chAdd_nil]
      intro c hc
      rw [List.mem_singleton] at hc
      subst hc
      exact hchild1
  · rw [if_neg hrest]
    have hklen : longestCommonPrefix key child.pre < key.length := by
      by_contra hcon
      rw [not_lt] at hcon
      exact hrest (List.drop_eq_nil_iff.mpr hcon)
    have hleaf2 : SubOK (Node.mk (key.drop (longestCommonPrefix key child.pre))
        (some v) ([] : List (Node T))) := subOK_leaf _ hrest v
    have hne2 : ∀ c ∈ chAdd ([] : List (Node T))
        (Node.mk (child.pre.drop (longestCommonPrefix key child.pre)) child.val child.children),
        fstByte c ≠ fstByte (Node.mk (key.drop (longestCommonPrefix key child.pre))
          (some v) ([] : List (Node T))) := by
      intro c hc
      rw [chAdd_nil, List.mem_singleton] at hc
      subst hc
      rw [fstByte, fstByte, Node.pre_mk, Node.pre_mk]
      exact fun h => lcm_drop_head_ne hklen hl h.symm
    have hsorted : sortedFst (chAdd (chAdd []
        (Node.mk (child.pre.drop (longestCommonPrefix key child.pre)) child.val child.children))
        (Node.mk (key.drop (longestCommonPrefix key child.pre)) (some v) [])) := by
      apply chAdd_sorted ?_ hne2
      rw [chAdd_nil]
      exact List.pairwise_singleton _ _
    refine ⟨SubOK.intro _ _ _ htake_ne ?_ hsorted ?_, hfb _ _⟩
    · intro hlen
      rw [chAdd_length, chAdd_nil] at hlen
      simp at hlen
    · intro c hc
      rw [mem_chAdd] at hc
      rcases hc with rfl | hc
      · exact hleaf2
      · rw [chAdd_nil, List.mem_singleton] at hc
        subst hc
        exact hchild1

theorem insN_wf : ∀ n : Node T, innerOK n → ∀ (v : T) (key : Bytes),
    innerOK (insN v n key).1 ∧
    ((n.children.length ≤ 1 → n.val.isSome = true) →
      ((insN v n key).1.children.length ≤ 1 → (insN v n key).1.val.isSome = true)) := by
  apply Node.ind
  intro p vv cs ih hOK v key
  obtain ⟨hs, hsub⟩ := hOK
  simp only [Node.children_mk] at hs hsub
  cases key with
  | nil =>
    rw [insN_nil]
    exact ⟨⟨hs, hsub⟩, fun _ _ => rfl⟩
  | cons k0 ks =>
    cases hidx : chIndex (Node.mk p vv cs).children k0 with
    | none =>
      rw [insN_cons_none hidx]
      simp only [Node.children_mk] at hidx
      have hall := (chIndex_none_iff hs).mp hidx
      have hfresh : ∀ c ∈ cs, fstByte c ≠ fstByte (Node.mk (k0 :: ks) (some v) []) := by
        intro c hc
        simpa [fstByte] using hall c hc
      refine ⟨⟨chAdd_sorted hs hfresh, ?_⟩, ?_⟩
      · intro c hc
        rw [Node.children_mk, mem_chAdd] at hc
        rcases hc with rfl | hc
        · exact subOK_leaf _ (by simp) v
        · exact hsub c hc
      · intro h4 hlen
        simp only [Node.children_mk, chAdd_length] at hlen
        exact h4 (by simp only [Node.children_mk]; omega)
    | some i =>
      have hmem : (Node.mk p vv cs).children.get i ∈ cs := List.get_mem cs i.1 i.2
      have hfst : fstByte ((Node.mk p vv cs).children.get i) = k0 :=
        (chIndex_some_iff hs).mp (by simpa using hidx)
      by_cases hl : longestCommonPrefix (k0 :: ks) ((Node.mk p vv cs).children.get i).pre <
          ((Node.mk p vv cs).children.get i).pre.length
      · rw [insN_cons_split hidx hl]
        have hsOK := @subOK_splitNode T ((Node.mk p vv cs).children.get i) (hsub _ hmem) v
          (k0 :: ks) (by simp) (by simpa using hfst.symm) hl
        refine ⟨⟨?_, ?_⟩, ?_⟩
        · rw [Node.children_mk]
          exact sortedFst_set hs i (by rw [hsOK.2]; simpa using hfst.symm)
        · intro c hc
          rw [Node.children_mk] at hc
          rcases List.mem_or_eq_of_mem_set hc with hc | rfl
          · exact hsub c hc
          · exact hsOK.1
        · intro h4 hlen
          simp only [Node.children_mk, List.length_set] at hlen
          exact h4 (by simp only [Node.children_mk]; omega)
      · rw [insN_cons_descend hidx hl]
        have hIH := ih _ hmem (hsub _ hmem).inner v
          ((k0 :: ks).drop (longestCommonPrefix (k0 :: ks) ((Node.mk p vv cs).children.get i).pre))
        have hsubc := hsub _ hmem
        have hsub' : SubOK (insN v ((Node.mk p vv cs).children.get i)
            ((k0 :: ks).drop (longestCommonPrefix (k0 :: ks)
              ((Node.mk p vv cs).children.get i).pre))).1 := by
          apply SubOK.of_parts
          · rw [insN_pre]
            exact hsubc.pre_ne
          · exact hIH.2 hsubc.inv4
          · exact hIH.1
        refine ⟨⟨?_, ?_⟩, ?_⟩
        · rw [Node.children_mk]
          apply sortedFst_set hs i
          rw [fstByte, insN_pre]
          rfl
        · intro c hc
          rw [Node.children_mk] at hc
          rcases List.mem_or_eq_of_mem_set hc with hc | rfl
          · exact hsub c hc
          · exact hsub'
        · intro h4 hlen
          simp only [Node.children_mk, List.length_set] at hlen
          exact h4 (by simp only [Node.children_mk]; omega)

theorem insN_snd : ∀ n : Node T, innerOK n → ∀ (v : T) (key : Bytes),
    (insN v n key).2 = getN n key := by
  apply Node.ind
  intro p vv cs ih hOK v key
  obtain ⟨hs, hsub⟩ := hOK
  simp only [Node.children_mk] at hs hsub
  cases key with
  | nil =>
    rw [insN_nil, getN_nil]
    cases vv <;> rfl
  | cons k0 ks =>
    cases hidx : chIndex (Node.mk p vv cs).children k0 with
    | none => rw [insN_cons_none hidx, getN_cons_none hidx]
    | some i =>
      have hmem : (Node.mk p vv cs).children.get i ∈ cs := List.get_mem cs i.1 i.2
      by_cases hl : longestCommonPrefix (k0 :: ks) ((Node.mk p vv cs).children.get i).pre <
          ((Node.mk p vv cs).children.get i).pre.length
      · rw [insN_cons_split hidx hl, getN_cons_some hidx]
        have hbp : ¬ bytesHasPre (k0 :: ks) ((Node.mk p vv cs).children.get i).pre = true := by
          rw [bytesHasPre_iff_lcm]
          omega
        rw [if_neg hbp]
      · rw [insN_cons_descend hidx hl, getN_cons_some hidx]
        have hlen : longestCommonPrefix (k0 :: ks) ((Node.mk p vv cs).children.get i).pre =
            ((Node.mk p vv cs).children.get i).pre.length := by
          have := lcm_le_right (k0 :: ks) ((Node.mk p vv cs).children.get i).pre
          omega
        have hbp : bytesHasPre (k0 :: ks) ((Node.mk p vv cs).children.get i).pre = true := by
          rw [bytesHasPre_iff_lcm]
          exact hlen
        rw [if_pos hbp]
        rw [show ((k0 :: ks).drop ((Node.mk p vv cs).children.get i).pre.length) =
          ((k0 :: ks).drop (longestCommonPrefix (k0 :: ks)
            ((Node.mk p vv cs).children.get i).pre)) from by rw [hlen]]
        exact ih _ hmem (hsub _ hmem).inner v _

theorem splitNode_pre (v : T) (key : Bytes) (lcm : Nat) (child : Node T) :
    (splitNode v key lcm child).pre = key.take lcm := by
  rw [splitNode]
  split <;> rfl

theorem insN_get_self : ∀ n : Node T, innerOK n → ∀ (v : T) (key : Bytes),
    getN (insN v n key).1 key = some v := by
  apply Node.ind
  intro p vv cs ih hOK v key
  obtain ⟨hs, hsub⟩ := hOK
  simp only [Node.children_mk] at hs hsub
  cases key with
  | nil =>
    rw [insN_nil]
    simp
  | cons k0 ks =>
    cases hidx : chIndex (Node.mk p vv cs).children k0 with
    | none =>
      rw [insN_cons_none hidx]
      simp only [Node.pre_mk, Node.val_mk, Node.children_mk]
      simp only [Node.children_mk] at hidx
      have hall := (chIndex_none_iff hs).mp hidx
      have hfresh : ∀ c ∈ cs, fstByte c ≠ fstByte (Node.mk (k0 :: ks) (some v) []) := by
        intro c hc
        simpa [fstByte] using hall c hc
      have hsorted1 := chAdd_sorted hs hfresh
      obtain ⟨j, hj, hjget⟩ := chIndex_of_mem hsorted1 (mem_chAdd.mpr (Or.inl rfl))
      have hj1 : chIndex (Node.mk p vv (chAdd cs (Node.mk (k0 :: ks) (some v) []))).children k0
          = some j := by
        simpa [fstByte] using hj
      rw [getN_cons_some hj1]
      rw [show (Node.mk p vv (chAdd cs (Node.mk (k0 :: ks) (some v) []))).children.get j =
        Node.mk (k0 :: ks) (some v) [] from hjget]
      rw [if_pos (by simpa using bytesHasPre_self (k0 :: ks))]
      simp
    | some i =>
      have hmem : cs.get i ∈ cs := List.get_mem cs i.1 i.2
      have hfst : fstByte (cs.get i) = k0 := (chIndex_some_iff hs).mp (by simpa using hidx)
      by_cases hl : longestCommonPrefix (k0 :: ks) (cs.get i).pre < (cs.get i).pre.length
      · rw [insN_cons_split hidx hl]
        simp only [Node.pre_mk, Node.val_mk, Node.children_mk]
        have hsOK := @subOK_splitNode T (cs.get i) (hsub _ hmem) v
          (k0 :: ks) (by simp) (by simpa using hfst.symm) hl
        have hsorted1 : sortedFst (cs.set i.1
            (splitNode v (k0 :: ks) (longestCommonPrefix (k0 :: ks) (cs.get i).pre)
              (cs.get i))) :=
          sortedFst_set hs i (by rw [hsOK.2]; simpa using hfst.symm)
        have hil : i.1 < (cs.set i.1
            (splitNode v (k0 :: ks) (longestCommonPrefix (k0 :: ks) (cs.get i).pre)
              (cs.get i))).length := by
          rw [List.length_set]
          exact i.2
        have hget : (cs.set i.1
            (splitNode v (k0 :: ks) (longestCommonPrefix (k0 :: ks) (cs.get i).pre)
              (cs.get i))).get ⟨i.1, hil⟩ =
            splitNode v (k0 :: ks) (longestCommonPrefix (k0 :: ks) (cs.get i).pre)
              (cs.get i) := by
          simp [List.getElem_set]
        have hidx1 : chIndex (Node.mk p vv (cs.set i.1
            (splitNode v (k0 :: ks) (longestCommonPrefix (k0 :: ks) (cs.get i).pre)
              (cs.get i)))).children k0 = some ⟨i.1, hil⟩ := by
          apply (chIndex_some_iff hsorted1).mpr
          rw [hget]
          exact hsOK.2
        rw [getN_cons_some hidx1]
        rw [show (Node.mk p vv (cs.set i.1
            (splitNode v (k0 :: ks) (longestCommonPrefix (k0 :: ks) (cs.get i).pre)
              (cs.get i)))).children.get ⟨i.1, hil⟩ =
            splitNode v (k0 :: ks) (longestCommonPrefix (k0 :: ks) (cs.get i).pre)
              (cs.get i) from hget]
        rw [splitNode_pre]
        rw [if_pos (bytesHasPre_take _ _)]
        have hlt : ((k0 :: ks).take (longestCommonPrefix (k0 :: ks) (cs.get i).pre)).length =
            longestCommonPrefix (k0 :: ks) (cs.get i).pre := by
          have := lcm_le_left (k0 :: ks) (cs.get i).pre
          rw [List.length_take]
          omega
        rw [hlt]
        rw [splitNode]
        by_cases hrest : (k0 :: ks).drop (longestCommonPrefix (k0 :: ks) (cs.get i).pre) = []
        · rw [if_pos hrest, hrest]
          simp
        · rw [if_neg hrest]
          cases hrest2 : (k0 :: ks).drop (longestCommonPrefix (k0 :: ks) (cs.get i).pre) with
          | nil => exact absurd hrest2 hrest
          | cons r0 rs =>
            have hsorted2 : sortedFst (chAdd (chAdd []
                (Node.mk ((cs.get i).pre.drop (longestCommonPrefix (k0 :: ks) (cs.get i).pre))
                  (cs.get i).val (cs.get i).children))
                (Node.mk (r0 :: rs) (some v) [])) := by
              have h1 := hsOK.1
              rw [splitNode, if_neg hrest] at h1
              have h2 := h1.sortedChildren
              simp only [Node.children_mk, hrest2] at h2
              exact h2
            obtain ⟨j, hj, hjget⟩ := chIndex_of_mem hsorted2 (mem_chAdd.mpr (Or.inl rfl))
            have hfb : fstByte (Node.mk (r0 :: rs) (some v) ([] : List (Node T))) = r0 := by
              rw [fstByte, Node.pre_mk]
              rfl
            rw [hfb] at hj
            have hj2 : chIndex (Node.mk ((k0 :: ks).take
                (longestCommonPrefix (k0 :: ks) (cs.get i).pre)) none
                (chAdd (chAdd []
                  (Node.mk ((cs.get i).pre.drop (longestCommonPrefix (k0 :: ks) (cs.get i).pre))
                    (cs.get i).val (cs.get i).children))
                  (Node.mk (r0 :: rs) (some v) []))).children r0 = some j := hj
            rw [getN_cons_some hj2]
            rw [show (Node.mk ((k0 :: ks).take
                (longestCommonPrefix (k0 :: ks) (cs.get i).pre)) none
                (chAdd (chAdd []
                  (Node.mk ((cs.get i).pre.drop (longestCommonPrefix (k0 :: ks) (cs.get i).pre))
                    (cs.get i).val (cs.get i).children))
                  (Node.mk (r0 :: rs) (some v) []))).children.get j =
                Node.mk (r0 :: rs) (some v) [] from hjget]
            rw [if_pos (by simpa using bytesHasPre_self (r0 :: rs))]
            simp
      · rw [insN_cons_descend hidx hl]
        simp only [Node.pre_mk, Node.val_mk, Node.children_mk]
        have hlen : longestCommonPrefix (k0 :: ks) (cs.get i).pre = (cs.get i).pre.length := by
          have := lcm_le_right (k0 :: ks) (cs.get i).pre
          omega
        have hfb1 : fstByte (insN v (cs.get i)
            ((k0 :: ks).drop (longestCommonPrefix (k0 :: ks) (cs.get i).pre))).1 =
            fstByte (cs.get i) := by
          rw [fstByte, fstByte, insN_pre]
        have hsorted1 : sortedFst (cs.set i.1 (insN v (cs.get i)
            ((k0 :: ks).drop (longestCommonPrefix (k0 :: ks) (cs.get i).pre))).1) :=
          sortedFst_set hs i hfb1
        have hil : i.1 < (cs.set i.1 (insN v (cs.get i)
            ((k0 :: ks).drop (longestCommonPrefix (k0 :: ks) (cs.get i).pre))).1).length := by
          rw [List.length_set]
          exact i.2
        have hget : (cs.set i.1 (insN v (cs.get i)
            ((k0 :: ks).drop (longestCommonPrefix (k0 :: ks) (cs.get i).pre))).1).get ⟨i.1, hil⟩ =
            (insN v (cs.get i)
              ((k0 :: ks).drop (longestCommonPrefix (k0 :: ks) (cs.get i).pre))).1 := by
          simp [List.getElem_set]
        have hidx1 : chIndex (Node.mk p vv (cs.set i.1
            (insN v (cs.get i)
              ((k0 :: ks).drop (longestCommonPrefix (k0 :: ks) (cs.get i).pre))).1)).children k0 =
            some ⟨i.1, hil⟩ := by
          apply (chIndex_some_iff hsorted1).mpr
          rw [hget, hfb1]
          exact hfst
        rw [getN_cons_some hidx1]
        rw [show (Node.mk p vv (cs.set i.1
            (insN v (cs.get i)
              ((k0 :: ks).drop (longestCommonPrefix (k0 :: ks) (cs.get i).pre))).1)).children.get
              ⟨i.1, hil⟩ =
            (insN v (cs.get i)
              ((k0 :: ks).drop (longestCommonPrefix (k0 :: ks) (cs.get i).pre))).1 from hget]
        have hbp : bytesHasPre (k0 :: ks) (insN v (cs.get i)
            ((k0 :: ks).drop (longestCommonPrefix (k0 :: ks) (cs.get i).pre))).1.pre = true := by
          rw [insN_pre, bytesHasPre_iff_lcm]
          exact hlen
        rw [if_pos hbp]
        rw [show (insN v (cs.get i)
            ((k0 :: ks).drop (longestCommonPrefix (k0 :: ks) (cs.get i).pre))).1.pre.length =
            longestCommonPrefix (k0 :: ks) (cs.get i).pre from by rw [insN_pre, hlen]]
        exact ih _ hmem (hsub _ hmem).inner v _

theorem insN_len : ∀ (n : Node T) (v : T) (key : Bytes),
    (entsIn (insN v n key).1).length + (if (insN v n key).2.isSome then 1 else 0) =
      (entsIn n).length + 1 := by
  apply Node.ind
  intro p vv cs ih v key
  cases key with
  | nil =>
    rw [insN_nil]
    cases vv <;> simp
  | cons k0 ks =>
    cases hidx : chIndex (Node.mk p vv cs).children k0 with
    | none =>
      rw [insN_cons_none hidx]
      simp only [Node.pre_mk, Node.val_mk, Node.children_mk]
      rw [entsIn_node, entsIn_node]
      simp only [Node.val_mk, Node.children_mk, List.length_append, entsL_chAdd_length]
      simp <;> omega
    | some i =>
      have hmem : cs.get i ∈ cs := List.get_mem cs i.1 i.2
      by_cases hl : longestCommonPrefix (k0 :: ks) (cs.get i).pre < (cs.get i).pre.length
      · rw [insN_cons_split hidx hl]
        simp only [Node.pre_mk, Node.val_mk, Node.children_mk]
        rw [entsIn_node, entsIn_node]
        simp only [Node.val_mk, Node.children_mk, List.length_append]
        rw [entsL_set_decomp cs i, entsL_decomp cs i]
        simp only [List.length_append]
        have habs : (absEnts (splitNode v (k0 :: ks)
            (longestCommonPrefix (k0 :: ks) (cs.get i).pre) (cs.get i))).length =
            (absEnts (cs.get i)).length + 1 := by
          rw [absEnts, absEnts, List.length_map, List.length_map]
          rw [splitNode]
          split
          · rw [entsIn_mk_some, chAdd_nil, entsL_cons, entsL_nil]
            simp only [List.length_cons, List.append_nil, List.length_map, Nat.add_right_cancel_iff]
            exact congrArg List.length (entsIn_retag _ _)
          · rw [entsIn_mk_none, entsL_chAdd_length, chAdd_nil, entsL_cons, entsL_nil]
            simp only [entsL_nil, List.append_nil, List.length_map, List.length_nil, Nat.zero_add]
            simp only [entsIn_mk_some, entsL_nil, List.length_cons, List.length_nil,
              Nat.add_right_cancel_iff]
            exact congrArg List.length (entsIn_retag _ _)
        rw [habs]
        simp <;> omega
      · rw [insN_cons_descend hidx hl]
        simp only [Node.pre_mk, Node.val_mk, Node.children_mk]
        rw [entsIn_node, entsIn_node]
        simp only [Node.val_mk, Node.children_mk, List.length_append]
        rw [entsL_set_decomp cs i, entsL_decomp cs i]
        simp only [List.length_append]
        have hIH := ih _ hmem v ((k0 :: ks).drop (longestCommonPrefix (k0 :: ks)
          (cs.get i).pre))
        have habs : ∀ m : Node T, (absEnts m).length = (entsIn m).length := by
          intro m
          rw [absEnts, List.length_map]
        rw [habs, habs]
        omega


/-! ## Lemmas: `Remove` -/

theorem removeFrom_nil (isRoot : Bool) (n : Node T) : removeFrom isRoot n [] = none := by
  rw [removeFrom]

/-- Entries of side children (ones whose first byte differs from `b`) are
untouched by a filter that removes a key starting with `b`. -/
theorem filter_entsL_side {cs : List (Node T)} (hsub : ∀ c ∈ cs, SubOK c)
    {l : List (Node T)} (hmem : ∀ c ∈ l, c ∈ cs) {b : Nat}
    (hfst : ∀ c ∈ l, fstByte c ≠ b) {key : Bytes} (hkey : key.headD 0 = b) :
    (entsL l).filter (fun e => decide (e.1 ≠ key)) = entsL l := by
  apply filter_ne_of_all_ne
  intro e he
  obtain ⟨cj, hcj, e1, he1, rfl⟩ := mem_entsL_iff.mp he
  show cj.pre ++ e1.1 ≠ key
  intro hEq
  have h2 : fstByte cj = b := by
    rw [fstByte, ← hkey, ← hEq]
    exact (headD_append_of_ne_nil e1.1 (hsub _ (hmem _ hcj)).pre_ne).symm
  exact hfst _ hcj h2

theorem removeChildren_wf {n : Node T} (hs : sortedFst n.children)
    (hsub : ∀ c ∈ n.children, SubOK c) (i : Fin n.children.length) :
    sortedFst (removeChildren n i) ∧ (∀ c' ∈ removeChildren n i, SubOK c') ∧
    ((removeChildren n i).length = n.children.length ∨
      (removeChildren n i).length + 1 = n.children.length) := by
  have hc : SubOK (n.children.get i) := hsub _ (List.get_mem _ i.1 i.2)
  rw [removeChildren]
  by_cases h0 : ((n.children.get i).children.length == 0) = true
  · rw [if_pos h0]
    refine ⟨hs.sublist (List.eraseIdx_sublist _ _), ?_, ?_⟩
    · intro c' hc'
      exact hsub _ ((List.eraseIdx_sublist _ _).subset hc')
    · right
      rw [List.length_eraseIdx, if_pos i.2]
      have : 0 < n.children.length := lt_of_le_of_lt (Nat.zero_le _) i.2
      omega
  · rw [if_neg h0]
    by_cases h1 : ((n.children.get i).children.length == 1) = true
    · rw [if_pos h1]
      obtain ⟨d, hd⟩ := List.length_eq_one.mp (beq_iff_eq.mp h1)
      have hdOK : SubOK d := hc.each d (by rw [hd]; exact List.mem_singleton.mpr rfl)
      have hmerge : mergeNode (Node.mk (n.children.get i).pre none
          (n.children.get i).children) =
          Node.mk ((n.children.get i).pre ++ d.pre) d.val d.children := by
        rw [hd]
        rfl
      have hfb : fstByte (mergeNode (Node.mk (n.children.get i).pre none
          (n.children.get i).children)) = fstByte (n.children.get i) := by
        rw [hmerge, fstByte, Node.pre_mk, fstByte]
        exact headD_append_of_ne_nil _ hc.pre_ne
      refine ⟨sortedFst_set hs i hfb, ?_, Or.inl (List.length_set _ _ _)⟩
      intro c' hc'
      rcases List.mem_or_eq_of_mem_set hc' with hcm | rfl
      · exact hsub _ hcm
      · rw [hmerge]
        exact SubOK.intro _ _ _ (List.append_ne_nil_of_left_ne_nil hc.pre_ne _)
          hdOK.inv4 hdOK.sortedChildren hdOK.each
    · rw [if_neg h1]
      have hfb : fstByte (Node.mk (n.children.get i).pre none
          (n.children.get i).children) = fstByte (n.children.get i) := rfl
      refine ⟨sortedFst_set hs i hfb, ?_, Or.inl (List.length_set _ _ _)⟩
      intro c' hc'
      rcases List.mem_or_eq_of_mem_set hc' with hcm | rfl
      · exact hsub _ hcm
      · refine SubOK.intro _ _ _ hc.pre_ne ?_ hc.sortedChildren hc.each
        intro hlen
        exact absurd hlen (by simp only [beq_iff_eq] at h0 h1; omega)

theorem removeChildren_ents {n : Node T} (hs : sortedFst n.children)
    (hsub : ∀ c ∈ n.children, SubOK c) (i : Fin n.children.length) {v : T}
    (hv : (n.children.get i).val = some v) :
    entsL (removeChildren n i) =
      (entsL n.children).filter (fun e => decide (e.1 ≠ (n.children.get i).pre)) := by
  have hc : SubOK (n.children.get i) := hsub _ (List.get_mem _ i.1 i.2)
  have hmid : (absEnts (n.children.get i)).filter
      (fun e => decide (e.1 ≠ (n.children.get i).pre)) =
      (entsL (n.children.get i).children).map
        (fun e => ((n.children.get i).pre ++ e.1, e.2)) := by
    rw [absEnts, entsIn_node (n.children.get i), hv, List.map_append, List.filter_append]
    have h1 : (([(([] : Bytes), v)].map
        (fun e => ((n.children.get i).pre ++ e.1, e.2))).filter
        (fun e => decide (e.1 ≠ (n.children.get i).pre))) = [] := by
      simp
    have h2 : (((entsL (n.children.get i).children).map
        (fun e => ((n.children.get i).pre ++ e.1, e.2))).filter
        (fun e => decide (e.1 ≠ (n.children.get i).pre))) =
        (entsL (n.children.get i).children).map
          (fun e => ((n.children.get i).pre ++ e.1, e.2)) := by
      apply filter_ne_of_all_ne
      intro e he
      rw [List.mem_map] at he
      obtain ⟨e1, he1, rfl⟩ := he
      show (n.children.get i).pre ++ e1.1 ≠ (n.children.get i).pre
      have hne : e1.1 ≠ [] := entsL_key_ne_nil (fun d hd => (hc.each d hd).pre_ne) he1
      intro hEq
      apply hne
      exact List.append_cancel_left (hEq.trans (List.append_nil _).symm)
    rw [h1, h2, List.nil_append]
  have htake : (entsL (n.children.take i.1)).filter
      (fun e => decide (e.1 ≠ (n.children.get i).pre)) = entsL (n.children.take i.1) :=
    filter_entsL_side hsub (fun c hcm => List.mem_of_mem_take hcm)
      (fun c hcm => Nat.ne_of_lt (sorted_take_facts hs i c hcm)) rfl
  have hdrop : (entsL (n.children.drop (i.1 + 1))).filter
      (fun e => decide (e.1 ≠ (n.children.get i).pre)) =
      entsL (n.children.drop (i.1 + 1)) :=
    filter_entsL_side hsub (fun c hcm => List.mem_of_mem_drop hcm)
      (fun c hcm => (Nat.ne_of_lt (sorted_drop_facts hs i c hcm)).symm) rfl
  conv_rhs => rw [entsL_decomp n.children i]
  rw [List.filter_append, List.filter_append, htake, hdrop, hmid]
  rw [removeChildren]
  by_cases h0 : ((n.children.get i).children.length == 0) = true
  · rw [if_pos h0]
    have h00 : (n.children.get i).children = [] :=
      List.length_eq_zero.mp (beq_iff_eq.mp h0)
    rw [entsL_erase_decomp, h00]
    simp
  · rw [if_neg h0]
    by_cases h1 : ((n.children.get i).children.length == 1) = true
    · rw [if_pos h1]
      obtain ⟨d, hd⟩ := List.length_eq_one.mp (beq_iff_eq.mp h1)
      rw [entsL_set_decomp, hd, absEnts_mergeNode, absEnts_mk, entsIn_mk_none]
    · rw [if_neg h1]
      rw [entsL_set_decomp, absEnts_mk, entsIn_mk_none]

theorem absEnts_removeAt (isRoot : Bool) (n : Node T) (i : Fin n.children.length) :
    absEnts (removeAt isRoot n i) =
      absEnts (Node.mk n.pre n.val (removeChildren n i)) := by
  rw [removeAt]
  by_cases hcond : (!isRoot && (removeChildren n i).length == 1 && n.val.isNone) = true
  · rw [if_pos hcond]
    simp only [Bool.and_eq_true, beq_iff_eq, Option.isNone_iff_eq_none] at hcond
    obtain ⟨⟨-, hlen⟩, hnone⟩ := hcond
    obtain ⟨d, hd⟩ := List.length_eq_one.mp hlen
    rw [hnone, hd]
    exact absEnts_mergeNode n.pre d
  · rw [if_neg hcond]

theorem removeAt_root_wf {n : Node T} (hs : sortedFst n.children)
    (hsub : ∀ c ∈ n.children, SubOK c) (i : Fin n.children.length) :
    (removeAt true n i).pre = n.pre ∧ (removeAt true n i).val = n.val ∧
      innerOK (removeAt true n i) := by
  obtain ⟨h1, h2, h3⟩ := removeChildren_wf hs hsub i
  rw [removeAt, if_neg (by simp)]
  exact ⟨rfl, rfl, innerOK_mk.mpr ⟨h1, h2⟩⟩

theorem removeAt_sub_wf {n : Node T} (hn : SubOK n) (i : Fin n.children.length) :
    SubOK (removeAt false n i) ∧ bytesHasPre (removeAt false n i).pre n.pre = true := by
  obtain ⟨h1, h2, h3⟩ := removeChildren_wf hn.sortedChildren hn.each i
  rw [removeAt]
  by_cases hcond : (!false && (removeChildren n i).length == 1 && n.val.isNone) = true
  · rw [if_pos hcond]
    simp only [Bool.not_false, Bool.true_and, Bool.and_eq_true, beq_iff_eq,
      Option.isNone_iff_eq_none] at hcond
    obtain ⟨hlen, hnone⟩ := hcond
    obtain ⟨d, hd⟩ := List.length_eq_one.mp hlen
    have hdOK : SubOK d := h2 d (by rw [hd]; exact List.mem_singleton.mpr rfl)
    rw [hnone, hd]
    constructor
    · show SubOK (Node.mk (n.pre ++ d.pre) d.val d.children)
      exact SubOK.intro _ _ _ (List.append_ne_nil_of_left_ne_nil hn.pre_ne _)
        hdOK.inv4 hdOK.sortedChildren hdOK.each
    · show bytesHasPre (n.pre ++ d.pre) n.pre = true
      exact bytesHasPre_append _ _
  · rw [if_neg hcond]
    constructor
    · apply SubOK.of_parts
      · exact hn.pre_ne
      · intro hlen
        simp only [Node.children_mk] at hlen
        simp only [Node.val_mk]
        rcases Nat.lt_or_ge (removeChildren n i).length 1 with hl0 | hl1
        · exact hn.inv4 (by rcases h3 with h | h <;> omega)
        · have hlen1 : (removeChildren n i).length = 1 := by omega
          simp only [Bool.not_false, Bool.true_and, Bool.and_eq_true, beq_iff_eq,
            Option.isNone_iff_eq_none, not_and] at hcond
          cases hvv : n.val with
          | some w => rfl
          | none => exact absurd hvv (hcond hlen1)
      · exact innerOK_mk.mpr ⟨h1, h2⟩
    · exact bytesHasPre_self n.pre

theorem rem_wf : ∀ n : Node T, ∀ (isRoot : Bool) (key : Bytes) (r : Node T) (v : T),
    innerOK n → (isRoot = false → SubOK n) →
    removeFrom isRoot n key = some (r, v) →
    (isRoot = true → r.pre = n.pre ∧ r.val = n.val ∧ innerOK r) ∧
    (isRoot = false → SubOK r ∧ bytesHasPre r.pre n.pre = true) := by
  apply Node.ind
  intro p vv cs ih isRoot key r v hOK hsubn hrem
  obtain ⟨hs, hsub⟩ := hOK
  simp only [Node.children_mk] at hs hsub
  cases key with
  | nil =>
    rw [removeFrom_nil] at hrem
    cases hrem
  | cons k0 ks =>
    cases hidx : chIndex (Node.mk p vv cs).children k0 with
    | none =>
      rw [removeFrom_cons_none hidx] at hrem
      cases hrem
    | some i =>
      by_cases hbp : bytesHasPre (k0 :: ks) ((Node.mk p vv cs).children.get i).pre = true
      · by_cases hdp : (k0 :: ks).drop ((Node.mk p vv cs).children.get i).pre.length = []
        · rw [removeFrom_cons_land hidx hbp hdp] at hrem
          cases hval : ((Node.mk p vv cs).children.get i).val with
          | none =>
            simp only [hval] at hrem
            cases hrem
          | some w =>
            simp only [hval, Option.some.injEq, Prod.mk.injEq] at hrem
            obtain ⟨hr, hveq⟩ := hrem
            constructor
            · intro ht
              subst ht
              rw [← hr]
              exact @removeAt_root_wf T (Node.mk p vv cs) hs hsub i
            · intro hf
              subst hf
              rw [← hr]
              exact removeAt_sub_wf (hsubn rfl) i
        · rw [removeFrom_cons_descend hidx hbp hdp] at hrem
          cases hrec : removeFrom false ((Node.mk p vv cs).children.get i)
              ((k0 :: ks).drop ((Node.mk p vv cs).children.get i).pre.length) with
          | none =>
            simp only [hrec] at hrem
            cases hrem
          | some pr =>
            obtain ⟨c1, w⟩ := pr
            simp only [hrec, Option.some.injEq, Prod.mk.injEq] at hrem
            obtain ⟨hr, hveq⟩ := hrem
            have hmem : (Node.mk p vv cs).children.get i ∈ cs := List.get_mem cs i.1 i.2
            have hsubc := hsub _ hmem
            have hIH := ih _ hmem false _ c1 w hsubc.inner (fun _ => hsubc) hrec
            obtain ⟨hc1, hc1p⟩ := hIH.2 rfl
            have hfsteq : fstByte c1 = fstByte ((Node.mk p vv cs).children.get i) := by
              show c1.pre.headD 0 = ((Node.mk p vv cs).children.get i).pre.headD 0
              exact bytesHasPre_head hsubc.pre_ne hc1p
            have hsorted : sortedFst (cs.set i.1 c1) := sortedFst_set hs i hfsteq
            have heach : ∀ c' ∈ cs.set i.1 c1, SubOK c' := by
              intro c' hc'
              rcases List.mem_or_eq_of_mem_set hc' with hcm | rfl
              · exact hsub _ hcm
              · exact hc1
            constructor
            · intro ht
              rw [← hr]
              exact ⟨rfl, rfl, innerOK_mk.mpr ⟨hsorted, heach⟩⟩
            · intro hf
              rw [← hr]
              refine ⟨SubOK.of_parts ?_ ?_ (innerOK_mk.mpr ⟨hsorted, heach⟩), ?_⟩
              · exact (hsubn hf).pre_ne
              · intro hlen
                apply (hsubn hf).inv4
                simp only [Node.children_mk, List.length_set] at hlen ⊢
                exact hlen
              · exact bytesHasPre_self p
      · rw [removeFrom_cons_nopre hidx hbp] at hrem
        cases hrem


theorem rem_ents : ∀ n : Node T, innerOK n → ∀ (isRoot : Bool) (k0 : Nat) (ks : Bytes),
    (∀ r v, removeFrom isRoot n (k0 :: ks) = some (r, v) →
      ((k0 :: ks, v) ∈ entsIn n ∧
       absEnts r = (absEnts n).filter (fun e => decide (e.1 ≠ n.pre ++ (k0 :: ks))))) ∧
    (removeFrom isRoot n (k0 :: ks) = none → ∀ x, (k0 :: ks, x) ∉ entsIn n) := by
  apply Node.ind
  intro p vv cs ih hOK isRoot k0 ks
  obtain ⟨hs, hsub⟩ := hOK
  simp only [Node.children_mk] at hs hsub
  cases hidx : chIndex (Node.mk p vv cs).children k0 with
  | none =>
    refine ⟨?_, ?_⟩
    · intro r v hrem
      rw [removeFrom_cons_none hidx] at hrem
      cases hrem
    · intro _ x hmemx
      simp only [Node.children_mk] at hidx
      have hall := (chIndex_none_iff hs).mp hidx
      rw [mem_entsIn_mk] at hmemx
      rcases hmemx with ⟨h1, h2⟩ | hmemx
      · exact absurd h1 (by simp)
      · obtain ⟨cj, hcj, e1, he1, heq⟩ := mem_entsL_iff.mp hmemx
        have hk : k0 :: ks = cj.pre ++ e1.1 := congrArg Prod.fst heq
        have hh := headD_of_append_eq_cons (hsub _ hcj).pre_ne hk.symm
        exact hall cj hcj (show fstByte cj = k0 from hh)
  | some i =>
    have hmem' : (Node.mk p vv cs).children.get i ∈ cs := List.get_mem cs i.1 i.2
    have hsubc : SubOK ((Node.mk p vv cs).children.get i) := hsub _ hmem'
    have hfst : fstByte ((Node.mk p vv cs).children.get i) = k0 :=
      (chIndex_some_iff hs).mp (by simpa using hidx)
    have hfstc : fstByte (cs.get i) = k0 := hfst
    by_cases hbp : bytesHasPre (k0 :: ks) ((Node.mk p vv cs).children.get i).pre = true
    · by_cases hd0 : (k0 :: ks).drop ((Node.mk p vv cs).children.get i).pre.length = []
      · have hkeq : k0 :: ks = ((Node.mk p vv cs).children.get i).pre := by
          obtain ⟨rr, hrr⟩ := bytesHasPre_iff.mp hbp
          have hdropeq :
              (k0 :: ks).drop ((Node.mk p vv cs).children.get i).pre.length = rr := by
            rw [hrr, List.drop_left]
          rw [hdropeq] at hd0
          rw [hrr, hd0, List.append_nil]
        cases hval : ((Node.mk p vv cs).children.get i).val with
        | none =>
          refine ⟨?_, ?_⟩
          · intro r v hrem
            rw [removeFrom_cons_land hidx hbp hd0] at hrem
            simp only [hval] at hrem
            cases hrem
          · intro _ x hmemx
            rw [mem_entsIn_mk] at hmemx
            rcases hmemx with ⟨h1, h2⟩ | hmemx
            · exact absurd h1 (by simp)
            · obtain ⟨e1, he1, hkey2, hx⟩ := (mem_entsL_block hs hsub
                (show (k0 :: ks).headD 0 = fstByte (cs.get i) from by
                  rw [List.headD_cons]; exact hfstc.symm)).mp hmemx
              have h6 : (cs.get i).pre ++ e1.1 = (cs.get i).pre ++ [] := by
                rw [List.append_nil]
                exact hkey2.symm.trans hkeq
              have h5 : e1.1 = [] := List.append_cancel_left h6
              have hvalc : (cs.get i).val = none := hval
              rw [entsIn_node (cs.get i)] at he1
              simp only [hvalc, List.nil_append] at he1
              exact entsL_key_ne_nil (fun d hdm => (hsubc.each d hdm).pre_ne) he1 h5
        | some w =>
          refine ⟨?_, ?_⟩
          · intro r v hrem
            rw [removeFrom_cons_land hidx hbp hd0] at hrem
            simp only [hval, Option.some.injEq, Prod.mk.injEq] at hrem
            obtain ⟨hr, hveq⟩ := hrem
            subst hveq
            constructor
            · rw [mem_entsIn_mk]
              right
              apply mem_entsL_iff.mpr
              refine ⟨_, hmem', (([] : Bytes), w), ?_, ?_⟩
              · rw [entsIn_node ((Node.mk p vv cs).children.get i)]
                simp only [hval]
                exact List.mem_append_left _ (List.mem_singleton.mpr rfl)
              · rw [hkeq]
                simp
            · rw [← hr, absEnts_removeAt]
              simp only [Node.pre_mk, Node.val_mk]
              rw [absEnts_mk, absEnts_mk, filter_map_shift_ne]
              apply congrArg
              rw [hkeq]
              rw [entsIn_node (Node.mk p vv (removeChildren (Node.mk p vv cs) i)),
                entsIn_node (Node.mk p vv cs)]
              simp only [Node.val_mk, Node.children_mk]
              rw [List.filter_append]
              rw [@removeChildren_ents T (Node.mk p vv cs) hs hsub i w hval]
              simp only [Node.children_mk]
              congr 1
              cases vv with
              | none => rfl
              | some x =>
                rw [List.filter_cons, if_pos ?posc]
                · rfl
                case posc =>
                  simp only [decide_eq_true_eq]
                  exact fun hcon => hsubc.pre_ne hcon.symm
          · intro hnone x hmemx
            rw [removeFrom_cons_land hidx hbp hd0] at hnone
            simp only [hval] at hnone
            cases hnone
      · obtain ⟨rr, hrr⟩ := bytesHasPre_iff.mp hbp
        have hdropeq :
            (k0 :: ks).drop ((Node.mk p vv cs).children.get i).pre.length = rr := by
          rw [hrr, List.drop_left]
        have hkeysplit : k0 :: ks = ((Node.mk p vv cs).children.get i).pre ++
            (k0 :: ks).drop ((Node.mk p vv cs).children.get i).pre.length := by
          rw [hdropeq]
          exact hrr
        cases hsk : (k0 :: ks).drop ((Node.mk p vv cs).children.get i).pre.length with
        | nil => exact absurd hsk hd0
        | cons s0 ss =>
          have hsk2 : (k0 :: ks).drop ((cs.get i)).pre.length = s0 :: ss := hsk
          have hkeysplit2 : k0 :: ks = (cs.get i).pre ++ (s0 :: ss) := by
            rw [hkeysplit, hsk]
            rfl
          have hhead : ((cs.get i).pre ++ (s0 :: ss)).headD 0 = fstByte (cs.get i) :=
            headD_append_of_ne_nil _ hsubc.pre_ne
          have hIH := ih _ hmem' hsubc.inner false s0 ss
          refine ⟨?_, ?_⟩
          · intro r v hrem
            rw [removeFrom_cons_descend hidx hbp hd0, hsk] at hrem
            cases hrec : removeFrom false ((Node.mk p vv cs).children.get i) (s0 :: ss) with
            | none =>
              simp only [hrec] at hrem
              cases hrem
            | some pr =>
              obtain ⟨c1, w⟩ := pr
              simp only [hrec, Option.some.injEq, Prod.mk.injEq] at hrem
              obtain ⟨hr, hveq⟩ := hrem
              subst hveq
              obtain ⟨hmemIH, hentsIH⟩ := hIH.1 c1 w hrec
              constructor
              · rw [mem_entsIn_mk]
                right
                apply mem_entsL_iff.mpr
                refine ⟨_, hmem', (s0 :: ss, w), hmemIH, ?_⟩
                rw [hkeysplit, hsk]
              · rw [← hr]
                simp only [Node.pre_mk, Node.val_mk, Node.children_mk]
                rw [absEnts_mk, absEnts_mk, filter_map_shift_ne]
                apply congrArg
                rw [entsIn_node (Node.mk p vv (cs.set i.1 c1)), entsIn_node (Node.mk p vv cs)]
                simp only [Node.val_mk, Node.children_mk]
                rw [List.filter_append]
                congr 1
                · cases vv with
                  | none => rfl
                  | some x =>
                    rw [List.filter_cons, if_pos ?poscd]
                    · rfl
                    case poscd =>
                      simp only [decide_eq_true_eq]
                      exact fun hcon => List.cons_ne_nil k0 ks (by exact hcon.symm)
                · rw [entsL_set_decomp cs i c1]
                  conv_rhs => rw [entsL_decomp cs i]
                  rw [List.filter_append, List.filter_append]
                  rw [hkeysplit2]
                  rw [filter_entsL_side hsub (fun c hcm => List.mem_of_mem_take hcm)
                    (fun c hcm => Nat.ne_of_lt (sorted_take_facts hs i c hcm)) hhead]
                  rw [filter_entsL_side hsub (fun c hcm => List.mem_of_mem_drop hcm)
                    (fun c hcm => (Nat.ne_of_lt (sorted_drop_facts hs i c hcm)).symm) hhead]
                  have hentsIH2 : absEnts c1 = (absEnts (cs.get i)).filter
                      (fun e => decide (e.1 ≠ (cs.get i).pre ++ (s0 :: ss))) := hentsIH
                  rw [← hentsIH2]
          · intro hnone x hmemx
            rw [removeFrom_cons_descend hidx hbp hd0, hsk] at hnone
            cases hrec : removeFrom false ((Node.mk p vv cs).children.get i) (s0 :: ss) with
            | some pr =>
              obtain ⟨c1, w⟩ := pr
              simp only [hrec] at hnone
              cases hnone
            | none =>
              have hIHn := hIH.2 hrec
              rw [mem_entsIn_mk] at hmemx
              rcases hmemx with ⟨h1, h2⟩ | hmemx
              · exact absurd h1 (by simp)
              · obtain ⟨e1, he1, hkey2, hx⟩ := (mem_entsL_block hs hsub
                  (show (k0 :: ks).headD 0 = fstByte (cs.get i) from by
                    rw [List.headD_cons]; exact hfstc.symm)).mp hmemx
                have he11 : e1.1 = s0 :: ss :=
                  List.append_cancel_left (hkey2.symm.trans hkeysplit2)
                apply hIHn x
                show (s0 :: ss, x) ∈ entsIn ((Node.mk p vv cs).children.get i)
                rw [hx, ← he11]
                simpa using he1
    · refine ⟨?_, ?_⟩
      · intro r v hrem
        rw [removeFrom_cons_nopre hidx hbp] at hrem
        cases hrem
      · intro _ x hmemx
        rw [mem_entsIn_mk] at hmemx
        rcases hmemx with ⟨h1, h2⟩ | hmemx
        · exact absurd h1 (by simp)
        · obtain ⟨e1, he1, hkey2, hx⟩ := (mem_entsL_block hs hsub
            (show (k0 :: ks).headD 0 = fstByte (cs.get i) from by
              rw [List.headD_cons]; exact hfstc.symm)).mp hmemx
          apply hbp
          show bytesHasPre (k0 :: ks) (cs.get i).pre = true
          rw [hkey2]
          exact bytesHasPre_append _ _


/-! ## Lemmas: counting and node enumeration -/

theorem cntVals_mk (p : Bytes) (v : Option T) (cs : List (Node T)) :
    cntVals (Node.mk p v cs) = (match v with | some _ => 1 | none => 0) + cntValsL cs := by
  simp only [cntVals.eq_def]

theorem cntValsL_nil : cntValsL ([] : List (Node T)) = 0 := by
  rw [cntValsL]

theorem cntValsL_cons (c : Node T) (cs : List (Node T)) :
    cntValsL (c :: cs) = cntVals c + cntValsL cs := by
  rw [cntValsL]

theorem cntVals_eq_length : ∀ n : Node T, cntVals n = (entsIn n).length := by
  apply Node.ind
  intro p v cs ih
  rw [cntVals_mk, entsIn_node]
  simp only [Node.val_mk, Node.children_mk, List.length_append]
  have hL : ∀ l : List (Node T), (∀ c ∈ l, cntVals c = (entsIn c).length) →
      cntValsL l = (entsL l).length := by
    intro l
    induction l with
    | nil =>
      intro _
      rw [cntValsL_nil, entsL_nil]
      rfl
    | cons c cl ihl =>
      intro hall
      rw [cntValsL_cons, entsL_cons, List.length_append, List.length_map]
      rw [hall c (List.mem_cons_self c cl), ihl (fun d hd => hall d (List.mem_cons_of_mem c hd))]
  rw [hL cs ih]
  cases v <;> simp

theorem allNodes_mk (p : Bytes) (v : Option T) (cs : List (Node T)) :
    allNodes (Node.mk p v cs) = Node.mk p v cs :: allNodesL cs := by
  rw [allNodes]

theorem allNodesL_nil : allNodesL ([] : List (Node T)) = [] := by
  rw [allNodesL]

theorem allNodesL_cons (c : Node T) (cs : List (Node T)) :
    allNodesL (c :: cs) = allNodes c ++ allNodesL cs := by
  rw [allNodesL]

theorem allNodes_eq (n : Node T) : allNodes n = n :: subNodes n := by
  cases n with
  | mk p v cs =>
    rw [allNodes_mk, subNodes]
    rfl

theorem mem_allNodesL_iff {l : List (Node T)} {m : Node T} :
    m ∈ allNodesL l ↔ ∃ c ∈ l, m ∈ allNodes c := by
  induction l with
  | nil => simp [allNodesL_nil]
  | cons c cl ih => simp [allNodesL_cons, List.mem_append, ih]

theorem subOK_allNodes : ∀ n : Node T, SubOK n → ∀ m ∈ allNodes n, SubOK m := by
  apply Node.ind
  intro p v cs ih hOK m hm
  rw [allNodes_mk, List.mem_cons] at hm
  rcases hm with rfl | hm
  · exact hOK
  · obtain ⟨c, hc, hmc⟩ := mem_allNodesL_iff.mp hm
    exact ih c hc (hOK.each c hc) m hmc

theorem subNodes_subOK {n : Node T} (h : innerOK n) : ∀ m ∈ subNodes n, SubOK m := by
  intro m hm
  rw [subNodes] at hm
  obtain ⟨c, hc, hmc⟩ := mem_allNodesL_iff.mp hm
  exact subOK_allNodes c (h.2 c hc) m hmc

theorem sortedFst_nodup {cs : List (Node T)} (hs : sortedFst cs) :
    (cs.map fstByte).Nodup :=
  List.pairwise_map.mpr (hs.imp fun h => Nat.ne_of_lt h)

theorem filter_length_of_nodup_mem {l : List (Bytes × T)}
    (hnd : (l.map (fun e => e.1)).Nodup) {key : Bytes} {v : T} (hmem : (key, v) ∈ l) :
    (l.filter (fun e => decide (e.1 ≠ key))).length + 1 = l.length := by
  induction l with
  | nil => cases hmem
  | cons e l ih =>
    rw [List.map_cons, List.nodup_cons] at hnd
    obtain ⟨hne, hnd2⟩ := hnd
    rw [List.mem_cons] at hmem
    rw [List.filter_cons]
    by_cases hek : e.1 = key
    · rw [if_neg (by simp [hek])]
      have hrest : ∀ e1 ∈ l, e1.1 ≠ key := by
        intro e1 he1 hcon
        apply hne
        rw [hek, ← hcon]
        exact List.mem_map_of_mem _ he1
      rw [filter_ne_of_all_ne hrest]
      simp
    · rw [if_pos (by simpa using hek)]
      rcases hmem with heq | hmem2
      · exact absurd (by rw [← heq]) hek
      · have := ih hnd2 hmem2
        rw [List.length_cons, List.length_cons]
        omega

/-! ## Lemmas: tree-level preservation -/

theorem Insert_wf (t : RadixTree T) (h : TreeWF t) (k : Bytes) (v : T) :
    TreeWF (t.Insert k v).1 := by
  obtain ⟨hpre, hOK, hsize⟩ := h
  refine ⟨?_, ?_, ?_⟩
  · show (insN v t.root k).1.pre = []
    rw [insN_pre]
    exact hpre
  · exact (insN_wf t.root hOK v k).1
  · show (if (insN v t.root k).2.isSome then t.size else t.size + 1) =
      (entsIn (insN v t.root k).1).length
    rw [hsize, treeEnts]
    have hlen := insN_len t.root v k
    by_cases hS : (insN v t.root k).2.isSome = true
    · rw [if_pos hS]
      rw [if_pos hS] at hlen
      omega
    · rw [if_neg hS]
      rw [if_neg hS] at hlen
      omega

theorem Remove_nil_some {t : RadixTree T} {w : T} (hv : t.root.val = some w) :
    t.Remove [] = (⟨Node.mk t.root.pre none t.root.children, t.size - 1⟩, some w) := by
  rw [RadixTree.Remove]
  simp only [hv]

theorem Remove_nil_none {t : RadixTree T} (hv : t.root.val = none) :
    t.Remove [] = (t, none) := by
  rw [RadixTree.Remove]
  simp only [hv]

theorem Remove_cons_some {t : RadixTree T} {k0 : Nat} {ks : Bytes} {r0 : Node T} {w : T}
    (hr : removeFrom true t.root (k0 :: ks) = some (r0, w)) :
    t.Remove (k0 :: ks) = (⟨r0, t.size - 1⟩, some w) := by
  rw [RadixTree.Remove]
  simp only [hr]

theorem Remove_cons_none {t : RadixTree T} {k0 : Nat} {ks : Bytes}
    (hr : removeFrom true t.root (k0 :: ks) = none) :
    t.Remove (k0 :: ks) = (t, none) := by
  rw [RadixTree.Remove]
  simp only [hr]

theorem Remove_some (t : RadixTree T) (h : TreeWF t) {k : Bytes} {r : RadixTree T} {v : T}
    (hrem : t.Remove k = (r, some v)) :
    TreeWF r ∧ (k, v) ∈ treeEnts t ∧
      treeEnts r = (treeEnts t).filter (fun e => decide (e.1 ≠ k)) := by
  obtain ⟨hpre, hOK, hsize⟩ := h
  cases k with
  | nil =>
    cases hv : t.root.val with
    | none =>
      rw [Remove_nil_none hv] at hrem
      have h2 := congrArg Prod.snd hrem
      simp at h2
    | some w =>
      rw [Remove_nil_some hv] at hrem
      rw [Prod.mk.injEq, Option.some.injEq] at hrem
      obtain ⟨hr1, hv1⟩ := hrem
      subst hv1
      subst hr1
      refine ⟨⟨hpre, ⟨hOK.1, hOK.2⟩, ?_⟩, ?_, ?_⟩
      · show t.size - 1 = (entsIn (Node.mk t.root.pre none t.root.children)).length
        rw [entsIn_mk_none, hsize, treeEnts, entsIn_node t.root, hv]
        simp
      · show (([] : Bytes), w) ∈ treeEnts t
        rw [treeEnts, entsIn_node t.root, hv]
        exact List.mem_append_left _ (List.mem_singleton.mpr rfl)
      · show entsIn (Node.mk t.root.pre none t.root.children) =
          (treeEnts t).filter (fun e => decide (e.1 ≠ ([] : Bytes)))
        rw [entsIn_mk_none, treeEnts, entsIn_node t.root, hv, List.filter_append]
        rw [show ([(([] : Bytes), w)].filter (fun e => decide (e.1 ≠ ([] : Bytes)))) = []
          from by simp]
        rw [List.nil_append]
        rw [filter_ne_of_all_ne
          (fun e he => entsL_key_ne_nil (fun c hc => (hOK.2 c hc).pre_ne) he)]
  | cons k0 ks =>
    cases hrf : removeFrom true t.root (k0 :: ks) with
    | none =>
      rw [Remove_cons_none hrf] at hrem
      have h2 := congrArg Prod.snd hrem
      simp at h2
    | some pr =>
      obtain ⟨r0, w⟩ := pr
      rw [Remove_cons_some hrf] at hrem
      rw [Prod.mk.injEq, Option.some.injEq] at hrem
      obtain ⟨hr1, hv1⟩ := hrem
      subst hv1
      subst hr1
      have hwf := rem_wf t.root true (k0 :: ks) r0 w hOK (by intro hcon; cases hcon) hrf
      obtain ⟨hprer, hvalr, hOKr⟩ := hwf.1 rfl
      obtain ⟨hmem, habs⟩ := (rem_ents t.root hOK true k0 ks).1 r0 w hrf
      have habs2 : entsIn r0 = (entsIn t.root).filter (fun e => decide (e.1 ≠ k0 :: ks)) := by
        have e1 : absEnts r0 = entsIn r0 := absEnts_entsIn r0 (by rw [hprer]; exact hpre)
        have e2 : absEnts t.root = entsIn t.root := absEnts_entsIn t.root hpre
        rw [e1, e2, hpre, List.nil_append] at habs
        exact habs
      have hnd := entsSorted_keys_nodup (innerOK_entsIn_sorted hOK)
      have hflen := filter_length_of_nodup_mem hnd hmem
      refine ⟨⟨?_, hOKr, ?_⟩, hmem, ?_⟩
      · show r0.pre = []
        rw [hprer]
        exact hpre
      · show t.size - 1 = (entsIn r0).length
        rw [hsize, treeEnts, habs2]
        omega
      · exact habs2

theorem Remove_none (t : RadixTree T) (h : TreeWF t) {k : Bytes}
    (hrem : (t.Remove k).2 = none) :
    (t.Remove k).1 = t ∧ ∀ x, (k, x) ∉ treeEnts t := by
  obtain ⟨hpre, hOK, hsize⟩ := h
  cases k with
  | nil =>
    cases hv : t.root.val with
    | some w =>
      rw [Remove_nil_some hv] at hrem
      simp at hrem
    | none =>
      rw [Remove_nil_none hv]
      refine ⟨rfl, ?_⟩
      intro x hx
      rw [treeEnts, entsIn_node t.root, hv, List.nil_append] at hx
      exact entsL_key_ne_nil (fun c hc => (hOK.2 c hc).pre_ne) hx rfl
  | cons k0 ks =>
    cases hrf : removeFrom true t.root (k0 :: ks) with
    | some pr =>
      obtain ⟨r0, w⟩ := pr
      rw [Remove_cons_some hrf] at hrem
      simp at hrem
    | none =>
      rw [Remove_cons_none hrf]
      exact ⟨rfl, (rem_ents t.root hOK true k0 ks).2 hrf⟩

theorem TreeWF_new : TreeWF (RadixTree.New : RadixTree T) := by
  refine ⟨rfl, ⟨List.Pairwise.nil, ?_⟩, ?_⟩
  · intro c hc
    cases hc
  · show (0 : Nat) = (treeEnts (RadixTree.New : RadixTree T)).length
    rw [treeEnts]
    show (0 : Nat) = (entsIn (Node.mk [] none ([] : List (Node T)))).length
    rw [entsIn_mk_none, entsL_nil]
    rfl

theorem reach_wf {t : RadixTree T} (h : Reachable t) : TreeWF t := by
  induction h with
  | new => exact TreeWF_new
  | ins t k v hr ih => exact Insert_wf t ih k v
  | rem t k hr ih =>
    cases hsnd : (t.Remove k).2 with
    | none =>
      rw [(Remove_none t ih hsnd).1]
      exact ih
    | some w =>
      have hpair : t.Remove k = ((t.Remove k).1, some w) := by
        rw [← hsnd]
      exact (Remove_some t ih hpair).1


/-! ## Lemmas: the last entry of a sorted list -/

theorem entsSorted_getLast_max : ∀ {l : List (Bytes × T)}, entsSorted l →
    ∀ {e : Bytes × T}, l.getLast? = some e →
    ∀ e1 ∈ l, e1 = e ∨ keyLtB e1.1 e.1 = true := by
  intro l
  induction l with
  | nil =>
    intro _ e hl
    cases hl
  | cons a l ih =>
    intro hsorted e hl e1 he1
    cases l with
    | nil =>
      rw [List.getLast?_singleton, Option.some.injEq] at hl
      rw [List.mem_singleton] at he1
      left
      rw [he1, hl]
    | cons b l2 =>
      rw [List.getLast?_cons_cons] at hl
      rw [entsSorted, List.pairwise_cons] at hsorted
      obtain ⟨ha, hrest⟩ := hsorted
      rw [List.mem_cons] at he1
      rcases he1 with rfl | he1
      · exact Or.inr (ha e (mem_of_getLast?_eq hl))
      · exact ih hrest hl e1 he1

theorem lastVal_none_some {l : List (Bytes × T)} {v : T} :
    lastVal l none = some v ↔ ∃ e, l.getLast? = some e ∧ e.2 = v := by
  rw [lastVal]
  cases hl : l.getLast? with
  | none => simp
  | some e => simp

theorem lastVal_none_none {l : List (Bytes × T)} :
    lastVal l none = none ↔ l = [] := by
  rw [lastVal]
  cases hl : l.getLast? with
  | none => simpa using List.getLast?_eq_none_iff.mp hl
  | some e =>
    constructor
    · intro hcon
      cases hcon
    · intro hcon
      rw [hcon] at hl
      cases hl

/-! ## The claims -/

/-- C1: the specification states that `Find p` yields exactly the stored
values whose key has `p` as a byte-prefix and is empty when no stored key
matches.  The code violates this: on the tree holding only the key "Jack"
(bytes [74, 97, 99, 107]), `Find "Jo"` (bytes [74, 111]) returns the value
stored at "Jack" even though no stored key has [74, 111] as a prefix — the
descent loop breaks on the divergent partial match with the current node
non-nil and then walks that node's whole subtree. -/
theorem C1_find_divergent_prefix :
    (((RadixTree.New : RadixTree Nat).Insert [74, 97, 99, 107] 1).1.Find [74, 111] = [1]) ∧
    (∀ e ∈ treeEnts ((RadixTree.New : RadixTree Nat).Insert [74, 97, 99, 107] 1).1,
      bytesHasPre e.1 [74, 111] = false) := by
  constructor
  · rw [Find_eq_findVals]
    simp [RadixTree.Insert, RadixTree.New, insN, chIndex, chSearch, sortSearch, srchGo,
      fstByte, chAdd, findVals, walkDescend, bytesHasPre, longestCommonPrefix,
      Node.pre, Node.val, Node.children]
  · intro e he
    simp only [treeEnts] at he
    simp [RadixTree.Insert, RadixTree.New, insN, chIndex, chSearch, sortSearch, srchGo,
      fstByte, chAdd, Node.pre, Node.val, Node.children] at he
    rw [he]
    decide

/-- C2: the specification states that `Successor` returns not-found when the
given key is not stored.  The code violates this: with "will"
([119, 105, 108, 108]) and "wit" ([119, 105, 116]) stored, the key "wi"
([119, 105]) is only a valueless branch node — `Get` misses — yet
`Successor "wi"` lands on the branch node and returns the minimum of its
first child's subtree, the value of "will". -/
theorem C2_successor_branch_key :
    ((((RadixTree.New : RadixTree Nat).Insert [119, 105, 108, 108] 1).1.Insert
        [119, 105, 116] 2).1.Get [119, 105] = none) ∧
    ((((RadixTree.New : RadixTree Nat).Insert [119, 105, 108, 108] 1).1.Insert
        [119, 105, 116] 2).1.Successor [119, 105] = some 1) := by
  constructor
  · simp [RadixTree.Get, RadixTree.Insert, RadixTree.New, insN, getN, chIndex, chSearch,
      sortSearch, srchGo, fstByte, chAdd, splitNode, longestCommonPrefix, bytesHasPre,
      Node.pre, Node.val, Node.children]
  · simp [RadixTree.Successor, RadixTree.Insert, RadixTree.New, insN, succN, nodeMin,
      chIndex, chSearch, sortSearch, srchGo, fstByte, chAdd, splitNode,
      longestCommonPrefix, bytesHasPre, Node.pre, Node.val, Node.children]

/-- C3 counterexample: the claim says the longest stored prefix includes the
root itself when the empty key is stored.  With the empty key stored (value
7), the empty key is a stored prefix of [1], yet `LongestPrefix [1]`
returns none — the descent loop only ever records values of child nodes,
never the root's. -/
theorem C3_counterexample :
    (((RadixTree.New : RadixTree Nat).Insert [] 7).1.Get [] = some 7) ∧
    (((RadixTree.New : RadixTree Nat).Insert [] 7).1.LongestPrefix [1] = none) := by
  constructor
  · simp [RadixTree.Get, RadixTree.Insert, RadixTree.New, insN, Node.pre, Node.val,
      Node.children]
  · simp [RadixTree.LongestPrefix, RadixTree.Insert, RadixTree.New, insN, lonN, chIndex,
      chSearch, sortSearch, srchGo, fstByte, Node.pre, Node.val, Node.children]

/-- C3 (amended): `LongestPrefix k` returns the value of the longest
non-empty stored key that is a byte-prefix of `k`, and none when no
non-empty stored key is a prefix of `k`; the value stored at the empty key
is never considered. -/
theorem C3_longest_nonempty_prefix (t : RadixTree T) (h : Reachable t) (k : Bytes) :
    (∀ v, t.LongestPrefix k = some v →
      ∃ e ∈ treeEnts t, e.1 ≠ [] ∧ bytesHasPre k e.1 = true ∧ e.2 = v ∧
        ∀ e1 ∈ treeEnts t, e1.1 ≠ [] → bytesHasPre k e1.1 = true →
          e1.1.length ≤ e.1.length) ∧
    (t.LongestPrefix k = none →
      ∀ e ∈ treeEnts t, e.1 ≠ [] → bytesHasPre k e.1 = false) := by
  have hOK := (reach_wf h).2.1
  have hmaster : t.LongestPrefix k = lastVal (lonCands t.root k) none :=
    lon_master t.root hOK k none
  have hsortedF : entsSorted (lonCands t.root k) :=
    (innerOK_entsIn_sorted hOK).sublist (List.filter_sublist _)
  constructor
  · intro v hv
    rw [hmaster] at hv
    obtain ⟨e, hle, he2⟩ := lastVal_none_some.mp hv
    have hemem : e ∈ lonCands t.root k := mem_of_getLast?_eq hle
    rw [lonCands, List.mem_filter, Bool.and_eq_true] at hemem
    obtain ⟨hmem, hne0, hpre⟩ := hemem
    have hne1 : e.1 ≠ [] := by
      rw [Bool.not_eq_true', List.isEmpty_eq_false] at hne0
      exact hne0
    refine ⟨e, hmem, hne1, hpre, he2, ?_⟩
    intro e1 h1mem h1ne h1pre
    have h1cand : e1 ∈ lonCands t.root k := by
      rw [lonCands, List.mem_filter, Bool.and_eq_true]
      refine ⟨h1mem, ?_, h1pre⟩
      rw [Bool.not_eq_true', List.isEmpty_eq_false]
      exact h1ne
    rcases entsSorted_getLast_max hsortedF hle e1 h1cand with rfl | hlt
    · exact le_rfl
    · exact Nat.le_of_lt (keyLt_length_of_both_pre h1pre hpre hlt)
  · intro hnone e hmem hne1
    rw [hmaster, lastVal_none_none] at hnone
    by_contra hcon
    rw [Bool.not_eq_false] at hcon
    have hc : e ∈ lonCands t.root k := by
      rw [lonCands, List.mem_filter, Bool.and_eq_true]
      refine ⟨hmem, ?_, hcon⟩
      rw [Bool.not_eq_true', List.isEmpty_eq_false]
      exact hne1
    rw [hnone] at hc
    cases hc

/-- Witness for the amended C3 on the spec's own example: "Eric" → 1 stored,
queried with "Ericson". -/
theorem C3_longest_nonempty_prefix_witness :
    (∀ v, ((RadixTree.New : RadixTree Nat).Insert [69, 114, 105, 99] 1).1.LongestPrefix
        [69, 114, 105, 99, 115, 111, 110] = some v →
      ∃ e ∈ treeEnts ((RadixTree.New : RadixTree Nat).Insert [69, 114, 105, 99] 1).1,
        e.1 ≠ [] ∧ bytesHasPre [69, 114, 105, 99, 115, 111, 110] e.1 = true ∧ e.2 = v ∧
        ∀ e1 ∈ treeEnts ((RadixTree.New : RadixTree Nat).Insert [69, 114, 105, 99] 1).1,
          e1.1 ≠ [] → bytesHasPre [69, 114, 105, 99, 115, 111, 110] e1.1 = true →
          e1.1.length ≤ e.1.length) ∧
    (((RadixTree.New : RadixTree Nat).Insert [69, 114, 105, 99] 1).1.LongestPrefix
        [69, 114, 105, 99, 115, 111, 110] = none →
      ∀ e ∈ treeEnts ((RadixTree.New : RadixTree Nat).Insert [69, 114, 105, 99] 1).1,
        e.1 ≠ [] → bytesHasPre [69, 114, 105, 99, 115, 111, 110] e.1 = false) :=
  C3_longest_nonempty_prefix _ (Reachable.ins _ [69, 114, 105, 99] 1 Reachable.new)
    [69, 114, 105, 99, 115, 111, 110]

/-- C4 counterexample: the claim says a partial trailing match (remaining
prefix [1] against the child edge [1, 2]) is a miss with an empty result,
but `Find [1]` on the tree holding only the key [1, 2] returns that key's
value. -/
theorem C4_counterexample :
    ((RadixTree.New : RadixTree Nat).Insert [1, 2] 5).1.Find [1] = [5] := by
  rw [Find_eq_findVals]
  simp [RadixTree.Insert, RadixTree.New, insN, chIndex, chSearch, sortSearch, srchGo,
    fstByte, chAdd, findVals, walkDescend, bytesHasPre, longestCommonPrefix,
    Node.pre, Node.val, Node.children]

/-- C4 (amended): when descent stops with the remaining prefix partially
matching a child's edge, the walk continues at that child rather than
missing; whenever at least one stored key has `p` as a byte-prefix, `Find p`
returns exactly the matching values in stored (ascending key) order. -/
theorem C4_partial_match_walks (t : RadixTree T) (h : Reachable t) (p : Bytes)
    (hex : ∃ e ∈ treeEnts t, bytesHasPre e.1 p = true) :
    t.Find p = ((treeEnts t).filter (fun e => bytesHasPre e.1 p)).map (fun e => e.2) := by
  rw [Find_eq_findVals]
  exact findVals_spec t.root (reach_wf h).2.1 p hex

/-- Witness for the amended C4: the tree holding [1, 2] → 5, queried with
the partial prefix [1]. -/
theorem C4_partial_match_walks_witness :
    ((RadixTree.New : RadixTree Nat).Insert [1, 2] 5).1.Find [1] =
      ((treeEnts ((RadixTree.New : RadixTree Nat).Insert [1, 2] 5).1).filter
        (fun e => bytesHasPre e.1 [1])).map (fun e => e.2) :=
  C4_partial_match_walks _ (Reachable.ins _ [1, 2] 5 Reachable.new) [1]
    ⟨([1, 2], 5), by
      simp only [treeEnts]
      simp [RadixTree.Insert, RadixTree.New, insN, chIndex, chSearch, sortSearch, srchGo,
        fstByte, chAdd, Node.pre, Node.val, Node.children], by decide⟩


/-- C5: after any sequence of `Insert`/`Remove` from `New`, every node's
children are strictly sorted by first prefix byte (so no two siblings share
one), every non-root node has a non-empty prefix and is never a valueless
single-child node, and the size counter equals the number of value-holding
nodes. -/
theorem C5_structural_invariants (t : RadixTree T) (h : Reachable t) :
    (∀ m ∈ allNodes t.root, sortedFst m.children ∧ (m.children.map fstByte).Nodup) ∧
    (∀ m ∈ subNodes t.root, m.pre ≠ [] ∧ ¬(m.children.length = 1 ∧ m.val = none)) ∧
    t.Len = cntVals t.root := by
  obtain ⟨hpre, hOK, hsize⟩ := reach_wf h
  refine ⟨?_, ?_, ?_⟩
  · intro m hm
    rw [allNodes_eq, List.mem_cons] at hm
    have hsorted : sortedFst m.children := by
      rcases hm with rfl | hm
      · exact hOK.1
      · exact (subNodes_subOK hOK m hm).sortedChildren
    exact ⟨hsorted, sortedFst_nodup hsorted⟩
  · intro m hm
    have hsub := subNodes_subOK hOK m hm
    refine ⟨hsub.pre_ne, ?_⟩
    rintro ⟨hlen, hval⟩
    have hinv := hsub.inv4 (by omega)
    rw [hval] at hinv
    cases hinv
  · show t.size = cntVals t.root
    rw [hsize, cntVals_eq_length, treeEnts]

/-- Witness for C5 on the tree obtained by inserting the key [1] with value
2 into the empty tree. -/
theorem C5_structural_invariants_witness :
    (∀ m ∈ allNodes (((RadixTree.New : RadixTree Nat).Insert [1] 2).1).root,
      sortedFst m.children ∧ (m.children.map fstByte).Nodup) ∧
    (∀ m ∈ subNodes (((RadixTree.New : RadixTree Nat).Insert [1] 2).1).root,
      m.pre ≠ [] ∧ ¬(m.children.length = 1 ∧ m.val = none)) ∧
    (((RadixTree.New : RadixTree Nat).Insert [1] 2).1).Len =
      cntVals (((RadixTree.New : RadixTree Nat).Insert [1] 2).1).root :=
  C5_structural_invariants _ (Reachable.ins _ [1] 2 Reachable.new)

/-- C6: on any reachable tree, `Get k` immediately after `Insert k v`
returns the value `v` just inserted, for every key including the empty
one. -/
theorem C6_get_after_insert (t : RadixTree T) (h : Reachable t) (k : Bytes) (v : T) :
    ((t.Insert k v).1).Get k = some v :=
  insN_get_self t.root (reach_wf h).2.1 v k

/-- Witness for C6: inserting [3] → 5 into the empty tree. -/
theorem C6_get_after_insert_witness :
    (((RadixTree.New : RadixTree Nat).Insert [3] 5).1).Get [3] = some 5 :=
  C6_get_after_insert RadixTree.New Reachable.new [3] 5

/-- C7: `Insert k v` returns exactly what `Get k` returned before the
insertion (the prior value, when the key was stored); `Len` is unchanged on
an update and grows by exactly one on a fresh insertion. -/
theorem C7_insert_return_len (t : RadixTree T) (h : Reachable t) (k : Bytes) (v : T) :
    ((t.Insert k v).2 = t.Get k) ∧
    (∀ w, t.Get k = some w → (t.Insert k v).1.Len = t.Len) ∧
    (t.Get k = none → (t.Insert k v).1.Len = t.Len + 1) := by
  have hOK := (reach_wf h).2.1
  have hsnd : (insN v t.root k).2 = getN t.root k := insN_snd t.root hOK v k
  refine ⟨hsnd, ?_, ?_⟩
  · intro w hw
    show (if (insN v t.root k).2.isSome then t.size else t.size + 1) = t.size
    rw [RadixTree.Get] at hw
    rw [hsnd, hw]
    simp
  · intro hw
    show (if (insN v t.root k).2.isSome then t.size else t.size + 1) = t.size + 1
    rw [RadixTree.Get] at hw
    rw [hsnd, hw]
    simp

/-- Witness for C7: inserting [1] → 7 into the empty tree. -/
theorem C7_insert_return_len_witness :
    (((RadixTree.New : RadixTree Nat).Insert [1] 7).2 =
      (RadixTree.New : RadixTree Nat).Get [1]) ∧
    (∀ w, (RadixTree.New : RadixTree Nat).Get [1] = some w →
      ((RadixTree.New : RadixTree Nat).Insert [1] 7).1.Len =
        (RadixTree.New : RadixTree Nat).Len) ∧
    ((RadixTree.New : RadixTree Nat).Get [1] = none →
      ((RadixTree.New : RadixTree Nat).Insert [1] 7).1.Len =
        (RadixTree.New : RadixTree Nat).Len + 1) :=
  C7_insert_return_len RadixTree.New Reachable.new [1] 7

/-- C8: after a successful `Remove k`, every key other than `k` is mapped
to exactly the same value as before — the merge restructuring never
disturbs another entry. -/
theorem C8_remove_frame (t : RadixTree T) (h : Reachable t) (k : Bytes)
    (r : RadixTree T) (v : T) (hrem : t.Remove k = (r, some v)) :
    ∀ k1 x, k1 ≠ k → (r.Get k1 = some x ↔ t.Get k1 = some x) := by
  have hwf := reach_wf h
  obtain ⟨hwfr, hmem, hents⟩ := Remove_some t hwf hrem
  intro k1 x hne
  rw [RadixTree.Get, RadixTree.Get]
  rw [getN_iff_mem t.root hwf.2.1 k1 x, getN_iff_mem r.root hwfr.2.1 k1 x]
  rw [show entsIn r.root = treeEnts r from rfl, hents, List.mem_filter]
  constructor
  · rintro ⟨hm, h2⟩
    exact hm
  · intro hm
    exact ⟨hm, by simp [hne]⟩

/-- Witness for C8: removing [1] from the tree {[1] → 5, [1, 2] → 6}
triggers the landing-node merge, leaving the single entry [1, 2] → 6. -/
theorem C8_remove_frame_witness :
    ((⟨Node.mk [] none [Node.mk [1, 2] (some 6) []], 1⟩ : RadixTree Nat).Get [1, 2] =
        some 6 ↔
      (((RadixTree.New : RadixTree Nat).Insert [1] 5).1.Insert [1, 2] 6).1.Get [1, 2] =
        some 6) :=
  C8_remove_frame _ (Reachable.ins _ [1, 2] 6 (Reachable.ins _ [1] 5 Reachable.new)) [1]
    ⟨Node.mk [] none [Node.mk [1, 2] (some 6) []], 1⟩ 5
    (by
      simp [RadixTree.Remove, RadixTree.Insert, RadixTree.New, insN, removeFrom, removeAt,
        removeChildren, mergeNode, chIndex, chSearch, sortSearch, srchGo, fstByte, chAdd,
        splitNode, longestCommonPrefix, bytesHasPre, Node.pre, Node.val, Node.children])
    [1, 2] 6 (by decide)

/-- C9: `Remove k` on a key that is not stored — including one that ends
partway along an edge or on a valueless branch node — returns not-found and
the tree itself, completely unchanged. -/
theorem C9_remove_absent (t : RadixTree T) (h : Reachable t) (k : Bytes)
    (habs : t.Get k = none) : t.Remove k = (t, none) := by
  have hwf := reach_wf h
  cases hsnd : (t.Remove k).2 with
  | none =>
    have h1 := (Remove_none t hwf hsnd).1
    exact Prod.ext h1 hsnd
  | some w =>
    have hpair : t.Remove k = ((t.Remove k).1, some w) := by
      rw [← hsnd]
    obtain ⟨hwfr, hmem, hents⟩ := Remove_some t hwf hpair
    rw [RadixTree.Get] at habs
    rw [(getN_iff_mem t.root hwf.2.1 k w).mpr hmem] at habs
    cases habs

/-- Witness for C9: removing the key [1], which only reaches partway along
the stored edge [1, 2]. -/
theorem C9_remove_absent_witness :
    ((RadixTree.New : RadixTree Nat).Insert [1, 2] 5).1.Remove [1] =
      (((RadixTree.New : RadixTree Nat).Insert [1, 2] 5).1, none) :=
  C9_remove_absent _ (Reachable.ins _ [1, 2] 5 Reachable.new) [1]
    (by
      simp [RadixTree.Get, RadixTree.Insert, RadixTree.New, insN, getN, chIndex, chSearch,
        sortSearch, srchGo, fstByte, chAdd, bytesHasPre, Node.pre, Node.val, Node.children])

/-- C10: on any reachable tree, `Values` returns exactly the stored values
in the depth-first entry order, and that order is strictly ascending in the
lexicographic order of the keys. -/
theorem C10_values_sorted (t : RadixTree T) (h : Reachable t) :
    t.Values = (treeEnts t).map (fun e => e.2) ∧ entsSorted (treeEnts t) :=
  ⟨Values_eq_treeEnts t, innerOK_entsIn_sorted (reach_wf h).2.1⟩

/-- Witness for C10 on the tree obtained by inserting [2] → 9. -/
theorem C10_values_sorted_witness :
    ((RadixTree.New : RadixTree Nat).Insert [2] 9).1.Values =
      (treeEnts ((RadixTree.New : RadixTree Nat).Insert [2] 9).1).map (fun e => e.2) ∧
    entsSorted (treeEnts ((RadixTree.New : RadixTree Nat).Insert [2] 9).1) :=
  C10_values_sorted _ (Reachable.ins _ [2] 9 Reachable.new)

end RadixSpec
